import Mathlib

/-!
Verification of the vchars-refinement privacy pipeline.

We shallowly embed the Python sources under `src/refiner/` into Lean:
* `refiner/utils/pii.py` — the regex cascade and the NLP fallback
  (`scrub_text_advanced`), with a small backtracking regex engine whose
  candidate order mirrors CPython's `re` (leftmost match, greedy
  quantifiers, alternatives tried left to right).
* `refiner/utils/other.py`, `refiner/utils/date.py` — `_to_int`, `_iso`.
* `refiner/utils/encrypt.py` is absent from the sources; `hash_id` is
  modelled from the spec (§4.1) as a salted SHA-256, implemented in full.
* `refiner/models/unrefined.py` — the validated raw-chat structures and
  the pydantic `.dict()` dump (`mDict`).
* `refiner/transformer/telegram_chat_transformer.py` — `transformChat`.
* `refiner/transformer/base_transformer.py` — `process`.
* `refiner/config.py` — `loadSettings`.

Strings are modelled as `List Char` where character indexing matters
(Python string indices are character indices).  Python's Unicode-aware
`\w`, `\s`, `\d` classes are modelled on the ASCII and Cyrillic ranges the
program's patterns target.  The spaCy entity model and `langdetect` are
external collaborators; they enter as an `NlpOracle` parameter, and the
storage collaborator's uniqueness enforcement is modelled from the
`UniqueConstraint("chat_id", "message_id")` declared in
`refiner/models/refined.py`.
-/

namespace VChars

/-- JSON-like values, used for the pydantic `Message.dict()` dump that feeds
the residual `content_json` payload. -/
inductive JVal where
  | null : JVal
  | int (n : Int) : JVal
  | str (s : String) : JVal
  | arr (xs : List JVal) : JVal
  | obj (fields : List (String × JVal)) : JVal

abbrev Chars := List Char

/-! ### Character classes (from the regexes in `refiner/utils/pii.py`) -/

def isAsciiDigit (c : Char) : Bool := 48 ≤ c.toNat && c.toNat ≤ 57

def isAsciiAlpha (c : Char) : Bool :=
  (65 ≤ c.toNat && c.toNat ≤ 90) || (97 ≤ c.toNat && c.toNat ≤ 122)

/-- The capital letters `[А-ЯЁ]`. -/
def isCyrUpper (c : Char) : Bool :=
  (0x410 ≤ c.toNat && c.toNat ≤ 0x42F) || c.toNat = 0x401

/-- The small letters `[а-яё]`. -/
def isCyrLower (c : Char) : Bool :=
  (0x430 ≤ c.toNat && c.toNat ≤ 0x44F) || c.toNat = 0x451

/-- The Cyrillic block, for the word-character class. -/
def isCyrillic (c : Char) : Bool := 0x400 ≤ c.toNat && c.toNat ≤ 0x4FF

/-- Python `\w`, modelled on the ASCII and Cyrillic ranges the program's
texts use. -/
def isWordChar (c : Char) : Bool :=
  isAsciiAlpha c || isAsciiDigit c || c = '_' || isCyrillic c

/-- Python `\s` (ASCII whitespace). -/
def isSpaceChar (c : Char) : Bool :=
  c.toNat = 32 || c.toNat = 9 || c.toNat = 10 || c.toNat = 13 ||
  c.toNat = 11 || c.toNat = 12

/-- Local part class of `EMAIL_RE`: `[a-zA-Z0-9_.+-]`. -/
def emailLocalChar (c : Char) : Bool :=
  isAsciiAlpha c || isAsciiDigit c || c = '_' || c = '.' || c = '+' || c = '-'

/-- First domain class of `EMAIL_RE`: `[a-zA-Z0-9-]`. -/
def emailDomChar (c : Char) : Bool := isAsciiAlpha c || isAsciiDigit c || c = '-'

/-- Final domain class of `EMAIL_RE`: `[a-zA-Z0-9-.]`. -/
def emailDom2Char (c : Char) : Bool := emailDomChar c || c = '.'

/-- Separator class of `PHONE_RE`: `[-.\s]`. -/
def phoneSepChar (c : Char) : Bool := c = '-' || c = '.' || isSpaceChar c

/-- Final class of `URL_RE`: `[a-zA-Z0-9/]`. -/
def urlEndChar (c : Char) : Bool := isAsciiAlpha c || isAsciiDigit c || c = '/'

/-! ### A small backtracking regex engine

Only the constructs the five patterns use: greedy counted character
classes, concatenation, alternation (for `?`), and the zero-width
assertions `\b`, `(?<!\w)`, `(?!\w)`.  `mat` returns the possible
(last-consumed-char, remaining-suffix) pairs in exactly the backtracking
engine's preference order, so `List.head?` is CPython's match. -/

inductive RE where
  | cls (f : Char → Bool) (lo : Nat) (hi : Option Nat)
  | seq (a b : RE)
  | alt (a b : RE)
  | wordB
  | noWordBefore
  | noWordAfter

/-- Length of the maximal run of characters satisfying `f`. -/
def runLen (f : Char → Bool) : Chars → Nat
  | [] => 0
  | c :: r => if f c then runLen f r + 1 else 0

/-- Candidate consumption lengths for a greedy counted class, longest first. -/
def greedyLens (lo : Nat) (hi : Option Nat) (maxRun : Nat) : List Nat :=
  let top := match hi with | none => maxRun | some h => min h maxRun
  if lo ≤ top then (List.range (top + 1 - lo)).map (fun i => top - i) else []

def lastOf (prev : Option Char) (consumed : Chars) : Option Char :=
  match consumed.getLast? with
  | some c => some c
  | none => prev

def mat : RE → Option Char → Chars → List (Option Char × Chars)
  | .cls f lo hi, prev, s =>
      (greedyLens lo hi (runLen f s)).map (fun k => (lastOf prev (s.take k), s.drop k))
  | .seq a b, prev, s => (mat a prev s).flatMap (fun pr => mat b pr.1 pr.2)
  | .alt a b, prev, s => mat a prev s ++ mat b prev s
  | .wordB, prev, s =>
      let pw := match prev with | some c => isWordChar c | none => false
      let nw := match s.head? with | some c => isWordChar c | none => false
      if pw ≠ nw then [(prev, s)] else []
  | .noWordBefore, prev, s =>
      match prev with
      | some c => if isWordChar c then [] else [(prev, s)]
      | none => [(prev, s)]
  | .noWordAfter, prev, s =>
      match s.head? with
      | some c => if isWordChar c then [] else [(prev, s)]
      | none => [(prev, s)]

/-- `re.sub` with a constant replacement: scan left to right, replace the
engine's first match at the leftmost matching position, continue after it.
All five patterns of `pii.py` only match non-empty spans, so the
length-guard branch for an empty match never fires for them.  The `fuel`
argument (one unit per consumed character, `s.length` at the top level)
makes the recursion structural. -/
def subREFuel (r : RE) (repl : Chars) : Nat → Option Char → Chars → Chars
  | _, _, [] => []
  | 0, _, s => s
  | fuel + 1, prev, c :: rest =>
    match (mat r prev (c :: rest)).head? with
    | some pr =>
        if pr.2.length < (c :: rest).length then
          repl ++ subREFuel r repl fuel pr.1 pr.2
        else
          c :: subREFuel r repl fuel (some c) rest
    | none => c :: subREFuel r repl fuel (some c) rest

/-- `PATTERN.sub(repl, s)`. -/
def reSub (r : RE) (repl : Chars) (s : Chars) : Chars := subREFuel r repl s.length none s

/-- `re.search` as a Bool: does the pattern match at some position? -/
def searchRE (r : RE) : Option Char → Chars → Bool
  | prev, [] => !(mat r prev []).isEmpty
  | prev, c :: rest => !(mat r prev (c :: rest)).isEmpty || searchRE r (some c) rest

/-- The empty pattern, used to encode `x?` as an alternation. -/
def epsRE : RE := .cls (fun _ => false) 0 (some 0)

/-- `x?` (greedy: try `x` first). -/
def optRE (r : RE) : RE := .alt r epsRE

/-- A single literal character. -/
def lit1 (c : Char) : RE := .cls (fun x => x = c) 1 (some 1)

/-- A literal string. -/
def litS (s : String) : RE := (s.data.map lit1).foldr .seq epsRE

/-- `EMAIL_RE = [a-zA-Z0-9_.+-]+@[a-zA-Z0-9-]+\.[a-zA-Z0-9-.]+`. -/
def EMAIL_RE : RE :=
  .seq (.cls emailLocalChar 1 none)
    (.seq (lit1 '@')
      (.seq (.cls emailDomChar 1 none)
        (.seq (lit1 '.') (.cls emailDom2Char 1 none))))

/-- `PHONE_RE = (\+?\d{1,3})?\(?\d{2,4}\)?[-.\s]?\d{2,4}[-.\s]?\d{2,9}`. -/
def PHONE_RE : RE :=
  .seq (optRE (.seq (optRE (lit1 '+')) (.cls isAsciiDigit 1 (some 3))))
    (.seq (optRE (lit1 '('))
      (.seq (.cls isAsciiDigit 2 (some 4))
        (.seq (optRE (lit1 ')'))
          (.seq (optRE (.cls phoneSepChar 1 (some 1)))
            (.seq (.cls isAsciiDigit 2 (some 4))
              (.seq (optRE (.cls phoneSepChar 1 (some 1)))
                (.cls isAsciiDigit 2 (some 9))))))))

/-- `URL_RE = https?://\S*[a-zA-Z0-9/]`. -/
def URL_RE : RE :=
  .seq (litS "http")
    (.seq (optRE (lit1 's'))
      (.seq (litS "://")
        (.seq (.cls (fun c => !isSpaceChar c) 0 none) (.cls urlEndChar 1 (some 1)))))

/-- `TELEGRAM_USERNAME_RE = (?<!\w)@(\w{5,32})(?!\w)`. -/
def TELEGRAM_USERNAME_RE : RE :=
  .seq .noWordBefore
    (.seq (lit1 '@') (.seq (.cls isWordChar 5 (some 32)) .noWordAfter))

/-- `CYRILLIC_NAME_RE = \b([А-ЯЁ][а-яё]+)\s+([А-ЯЁ][а-яё]+)\b`. -/
def CYRILLIC_NAME_RE : RE :=
  .seq .wordB
    (.seq (.cls isCyrUpper 1 (some 1))
      (.seq (.cls isCyrLower 1 none)
        (.seq (.cls isSpaceChar 1 none)
          (.seq (.cls isCyrUpper 1 (some 1))
            (.seq (.cls isCyrLower 1 none) .wordB)))))

/-! ### The scrubbing functions of `refiner/utils/pii.py` -/

def scrub_emails (text : String) : String :=
  if text = "" then text else ⟨reSub EMAIL_RE "[EMAIL]".data text.data⟩

def scrub_phones (text : String) : String :=
  if text = "" then text else ⟨reSub PHONE_RE "[PHONE]".data text.data⟩

def scrub_urls (text : String) : String :=
  if text = "" then text else ⟨reSub URL_RE "[URL]".data text.data⟩

def scrub_telegram_username (text : String) : String :=
  if text = "" then text
  else ⟨reSub TELEGRAM_USERNAME_RE "[TG_USERNAME]".data text.data⟩

/-- A spaCy token: character offset into the doc text, surface text, and
entity type tag. -/
structure NerTok where
  idx : Nat
  text : String
  entType : String

/-- A spaCy entity: label and member tokens. -/
structure NerEnt where
  label : String
  toks : List NerTok

/-- The external NLP collaborators: `langdetect.detect` (`none` models
`LangDetectException`, which the code maps to `"en"`) and the spaCy model
(`ents modelName docText`). -/
structure NlpOracle where
  detect : String → Option String
  ents : String → String → List NerEnt

/-- Tag choice per token: `label = "PERSON" if token.ent_type_ in
["PERSON", "PER"] else "LOCATION"`. -/
def tagOf (t : NerTok) : String :=
  if t.entType = "PERSON" || t.entType = "PER" then "PERSON" else "LOCATION"

/-- One redaction step:
`text = text[:token.idx] + f"[{label}]" + text[token.idx + len(token.text):]`. -/
def spliceTok (text : Chars) (t : NerTok) : Chars :=
  text.take t.idx ++ ("[" ++ tagOf t ++ "]").data ++ text.drop (t.idx + t.text.length)

/-- Stable insertion of a token into a list sorted by descending `idx`
(mirrors Python's stable `sorted(key=lambda t: t.idx, reverse=True)`). -/
def insertDesc (x : NerTok) : List NerTok → List NerTok
  | [] => [x]
  | y :: ys => if x.idx < y.idx then y :: insertDesc x ys else x :: y :: ys

def sortByIdxDesc (l : List NerTok) : List NerTok := l.foldr insertDesc []

/-- `tokens_to_redact`: the tokens of every entity labelled
`PERSON`/`PER`/`GPE`/`LOC`, in document order. -/
def collectToks (ents : List NerEnt) : List NerTok :=
  (ents.filter
    (fun e => e.label = "PERSON" || e.label = "PER" || e.label = "GPE" || e.label = "LOC")).flatMap
    (fun e => e.toks)

/-- The NLP-fallback redaction loop of `scrub_text_advanced`: replace each
collected token's span, highest offset first. -/
def nerRedact (ents : List NerEnt) (text : Chars) : Chars :=
  (sortByIdxDesc (collectToks ents)).foldl spliceTok text

/-- The structured-pattern cascade: emails, phones, URLs, handles, in the
order `scrub_text_advanced` applies them. -/
def cascade (text : String) : String :=
  scrub_telegram_username (scrub_urls (scrub_phones (scrub_emails text)))

/-- `scrub_text_advanced` from `refiner/utils/pii.py`, parameterized by the
external NLP collaborators. -/
def scrub_text_advanced (o : NlpOracle) (text : String) : String :=
  if text = "" then text
  else
    let t := cascade text
    if searchRE CYRILLIC_NAME_RE none t.data then
      ⟨reSub CYRILLIC_NAME_RE "[PERSON] [PERSON]".data t.data⟩
    else
      let lang := (o.detect t).getD "en"
      let modelName := if lang = "en" then "en_core_web_sm" else "xx_ent_wiki_sm"
      ⟨nerRedact (o.ents modelName t) t.data⟩

/-! ### SHA-256 and `hash_id`

The module `refiner/utils/encrypt.py` is absent from the sources; per the
spec (§4.1, §8) `hash_id` is a salted, deterministic SHA-256 over the
concatenation of salt and raw value, hex-encoded to 64 characters, and it
returns null on a null raw value.  We implement SHA-256 in full so the
hex-digest length is a theorem, not an assumption. -/

def w32 (x : Nat) : Nat := x % 4294967296

def rotr32 (x n : Nat) : Nat := w32 ((x >>> n) ||| (x <<< (32 - n)))

def smallSigma0 (x : Nat) : Nat := (rotr32 x 7) ^^^ (rotr32 x 18) ^^^ (x >>> 3)

def smallSigma1 (x : Nat) : Nat := (rotr32 x 17) ^^^ (rotr32 x 19) ^^^ (x >>> 10)

def bigSigma0 (x : Nat) : Nat := (rotr32 x 2) ^^^ (rotr32 x 13) ^^^ (rotr32 x 22)

def bigSigma1 (x : Nat) : Nat := (rotr32 x 6) ^^^ (rotr32 x 11) ^^^ (rotr32 x 25)

def K256 : List Nat :=
  [1116352408, 1899447441, 3049323471, 3921009573, 961987163, 1508970993,
   2453635748, 2870763221, 3624381080, 310598401, 607225278, 1426881987,
   1925078388, 2162078206, 2614888103, 3248222580, 3835390401, 4022224774,
   264347078, 604807628, 770255983, 1249150122, 1555081692, 1996064986,
   2554220882, 2821834349, 2952996808, 3210313671, 3336571891, 3584528711,
   113926993, 338241895, 666307205, 773529912, 1294757372, 1396182291,
   1695183700, 1986661051, 2177026350, 2456956037, 2730485921, 2820302411,
   3259730800, 3345764771, 3516065817, 3600352804, 4094571909, 275423344,
   430227734, 506948616, 659060556, 883997877, 958139571, 1322822218,
   1537002063, 1747873779, 1955562222, 2024104815, 2227730452, 2361852424,
   2428436474, 2756734187, 3204031479, 3329325298]

def H256init : List Nat :=
  [1779033703, 3144134277, 1013904242, 2773480762, 1359893119, 2600822924,
   528734635, 1541459225]

/-- Big-endian 4-byte groups to 32-bit words. -/
def bytesToWords : List Nat → List Nat
  | b0 :: b1 :: b2 :: b3 :: rest =>
      (((b0 * 256 + b1) * 256 + b2) * 256 + b3) :: bytesToWords rest
  | _ => []

/-- Extend the 16 message-schedule words to 64 (`n` = 48 rounds to go). -/
def extendSchedule (w : List Nat) : Nat → List Nat
  | 0 => w
  | n + 1 =>
      let len := w.length
      let nw := w32 (smallSigma1 (w.getD (len - 2) 0) + w.getD (len - 7) 0 +
        smallSigma0 (w.getD (len - 15) 0) + w.getD (len - 16) 0)
      extendSchedule (w ++ [nw]) n

/-- One SHA-256 compression round on state `[a,b,c,d,e,f,g,h]`. -/
def sha256Round (st : List Nat) (k w : Nat) : List Nat :=
  match st with
  | [a, b, c, d, e, f, g, h] =>
      let ch := (e &&& f) ^^^ ((4294967295 - e) &&& g)
      let t1 := w32 (h + bigSigma1 e + ch + k + w)
      let maj := (a &&& b) ^^^ (a &&& c) ^^^ (b &&& c)
      let t2 := w32 (bigSigma0 a + maj)
      [w32 (t1 + t2), a, b, c, w32 (d + t1), e, f, g]
  | other => other

def sha256Block (hs : List Nat) (block : List Nat) : List Nat :=
  let w := extendSchedule (bytesToWords block) 48
  let fin := (K256.zip w).foldl (fun st p => sha256Round st p.1 p.2) hs
  (hs.zip fin).map (fun p => w32 (p.1 + p.2))

def chunk64Go : List Nat → List Nat → List (List Nat)
  | [], cur => if cur.isEmpty then [] else [cur]
  | b :: rest, cur =>
      if cur.length = 63 then (cur ++ [b]) :: chunk64Go rest []
      else chunk64Go rest (cur ++ [b])

/-- Split into 64-byte blocks (the padded message is always a multiple). -/
def chunk64 (l : List Nat) : List (List Nat) := chunk64Go l []

/-- Big-endian 8-byte encoding of the bit length. -/
def be8 (n : Nat) : List Nat := (List.range 8).map (fun i => (n >>> (8 * (7 - i))) % 256)

def padMsg (msg : List Nat) : List Nat :=
  let padZeros := (119 - msg.length % 64) % 64
  msg ++ [128] ++ List.replicate padZeros 0 ++ be8 (msg.length * 8)

def sha256Words (msg : List Nat) : List Nat :=
  (chunk64 (padMsg msg)).foldl sha256Block H256init

/-- UTF-8 encoding of one character (Python `str.encode()`). -/
def utf8Bytes (c : Char) : List Nat :=
  let n := c.toNat
  if n < 128 then [n]
  else if n < 2048 then [192 + n / 64, 128 + n % 64]
  else if n < 65536 then [224 + n / 4096, 128 + (n / 64) % 64, 128 + n % 64]
  else [240 + n / 262144, 128 + (n / 4096) % 64, 128 + (n / 64) % 64, 128 + n % 64]

def strBytes (s : String) : List Nat := s.data.flatMap utf8Bytes

def hexDigits : Chars := "0123456789abcdef".data

/-- Fixed-width (8 hex chars) encoding of one 32-bit word. -/
def hex8 (w : Nat) : Chars :=
  (List.range 8).map (fun i => hexDigits.getD ((w >>> (4 * (7 - i))) % 16) '0')

def sha256Hex (s : String) : String := ⟨(sha256Words (strBytes s)).flatMap hex8⟩

/-- Modelled from the spec: `hash_id(raw_value, salt)` from the absent
module `refiner/utils/encrypt.py` — deterministic salted SHA-256 over the
concatenation of salt and raw value, hex-encoded; null raw values map to
null (§4.1).  Integer raw values are converted to their decimal string at
the call sites below. -/
def hash_id (rawValue : Option String) (salt : String) : Option String :=
  rawValue.map (fun v => sha256Hex (salt ++ v))

/-! ### `refiner/utils/other.py` and `refiner/utils/date.py` -/

/-- Digits of a decimal literal, `none` if empty or non-digit. -/
def digitsToNat (l : Chars) : Option Nat :=
  if !l.isEmpty && l.all isAsciiDigit then
    some (l.foldl (fun acc c => acc * 10 + (c.toNat - 48)) 0)
  else none

/-- Python `int(str)` on the strings the pipeline feeds it: optional
whitespace, optional sign, decimal digits (digit-group underscores are not
modelled).  `none` models `ValueError`. -/
def pyIntParse (s : String) : Option Int :=
  let t := ((s.data.dropWhile isSpaceChar).reverse.dropWhile isSpaceChar).reverse
  match t with
  | '+' :: ds => (digitsToNat ds).map Int.ofNat
  | '-' :: ds => (digitsToNat ds).map (fun n => -(Int.ofNat n))
  | ds => (digitsToNat ds).map Int.ofNat

/-- `_to_int` from `refiner/utils/other.py`: `int(val)` guarded by
`ValueError → None`, `None → None`. -/
def _to_int (val : Option String) : Option Int :=
  match val with
  | none => none
  | some s => pyIntParse s

def daysInMonth (y m : Nat) : Nat :=
  if m = 2 then
    if y % 4 = 0 && (y % 100 ≠ 0 || y % 400 = 0) then 29 else 28
  else if m = 4 || m = 6 || m = 9 || m = 11 then 30
  else 31

def pad2 (n : Nat) : String := if n < 10 then "0" ++ toString n else toString n

def pad4 (n : Nat) : String :=
  if n < 10 then "000" ++ toString n
  else if n < 100 then "00" ++ toString n
  else if n < 1000 then "0" ++ toString n
  else toString n

/-- `strptime(ts, "%Y-%m-%d %H:%M:%S")`: `%Y` is exactly four digits, the
other fields one or two digits within range, the format's blank matches a
run of whitespace, and the date must be a real calendar date. -/
def takeDigits (s : Chars) : Chars × Chars := (s.takeWhile isAsciiDigit, s.dropWhile isAsciiDigit)

def expectChar (c : Char) : Chars → Option Chars
  | x :: r => if x = c then some r else none
  | [] => none

def check (b : Bool) : Option Unit := if b then some () else none

/-- A one-or-two digit numeric field. -/
def parseNum2 (r : Chars) : Option (Nat × Chars) :=
  let p := takeDigits r
  (check (1 ≤ p.1.length && p.1.length ≤ 2)).bind fun _ =>
  (digitsToNat p.1).map fun n => (n, p.2)

/-- The `%Y-%m-%d` part: a four-digit year, then one-or-two-digit month and
day within calendar range. -/
def parseYmd (s : Chars) : Option (Nat × Nat × Nat × Chars) :=
  let py := takeDigits s
  (check (py.1.length = 4)).bind fun _ =>
  (digitsToNat py.1).bind fun y =>
  (expectChar '-' py.2).bind fun r2 =>
  (parseNum2 r2).bind fun pmo =>
  (check (1 ≤ pmo.1 && pmo.1 ≤ 12)).bind fun _ =>
  (expectChar '-' pmo.2).bind fun r4 =>
  (parseNum2 r4).bind fun pd =>
  (check (1 ≤ pd.1 && pd.1 ≤ daysInMonth y pmo.1)).map fun _ =>
  (y, pmo.1, pd.1, pd.2)

/-- The `%H:%M:%S` part, which must end the string. -/
def parseHms (r : Chars) : Option (Nat × Nat × Nat) :=
  (parseNum2 r).bind fun ph =>
  (check (ph.1 ≤ 23)).bind fun _ =>
  (expectChar ':' ph.2).bind fun r8 =>
  (parseNum2 r8).bind fun pmi =>
  (check (pmi.1 ≤ 59)).bind fun _ =>
  (expectChar ':' pmi.2).bind fun r10 =>
  (parseNum2 r10).bind fun psec =>
  (check (psec.1 ≤ 59)).bind fun _ =>
  (check psec.2.isEmpty).map fun _ =>
  (ph.1, pmi.1, psec.1)

def strptimeYmdHms (s : Chars) : Option (Nat × Nat × Nat × Nat × Nat × Nat) :=
  (parseYmd s).bind fun pd =>
  let r6 := pd.2.2.2.dropWhile isSpaceChar
  (check (r6.length < pd.2.2.2.length)).bind fun _ =>
  (parseHms r6).map fun pt =>
  (pd.1, pd.2.1, pd.2.2.1, pt.1, pt.2.1, pt.2.2)

/-- `_iso` from `refiner/utils/date.py`.  `utcnow()` is impure, so the
current time enters as the `now` parameter (already ISO-formatted with a
trailing Z, as the source produces).  A `strptime` failure models the
`ValueError` the source lets propagate. -/
def _iso (now : String) (ts : Option String) : Except String String :=
  match ts with
  | none => .ok now
  | some t =>
      if t.data.contains 'T' then .ok t
      else
        match strptimeYmdHms t.data with
        | some (y, mo, d, h, mi, sec) =>
            .ok (pad4 y ++ "-" ++ pad2 mo ++ "-" ++ pad2 d ++ "T" ++ pad2 h ++
              ":" ++ pad2 mi ++ ":" ++ pad2 sec ++ "Z")
        | none => .error ("time data " ++ t ++ " does not match format %Y-%m-%d %H:%M:%S")

/-! ### `refiner/models/unrefined.py` — the validated raw structures -/

structure TextEntity where
  type : String
  text : String

structure ReactionRecent where
  from_ : String
  from_id : String
  date : String

structure RawReaction where
  type : String
  count : Int
  emoji : String
  recent : List ReactionRecent

structure RawMessage where
  id : Option Int
  type : String
  date : String
  date_unixtime : Option String
  from_ : String
  from_id : Option String
  text : String ⊕ List TextEntity
  text_entities : Option (List TextEntity)
  edited : Option String
  edited_unixtime : Option String
  reply_to_message_id : Option Int
  forwarded_from : Option String
  photo : Option String
  width : Option Int
  height : Option Int
  file : Option String
  file_name : Option String
  thumbnail : Option String
  media_type : Option String
  mime_type : Option String
  duration_seconds : Option Int
  reactions : Option (List RawReaction)

structure RawChat where
  name : Option String
  type : String
  id : Option Int
  character_slug : Option String
  character_level : Option Int
  uploader_tg_id : Option Int
  messages : List RawMessage

def optIntJ (v : Option Int) : JVal :=
  match v with
  | none => .null
  | some n => .int n

def optStrJ (v : Option String) : JVal :=
  match v with
  | none => .null
  | some s => .str s

def textEntityJ (te : TextEntity) : JVal := .obj [("type", .str te.type), ("text", .str te.text)]

def textJ (t : String ⊕ List TextEntity) : JVal :=
  match t with
  | .inl s => .str s
  | .inr l => .arr (l.map textEntityJ)

def optEntitiesJ (v : Option (List TextEntity)) : JVal :=
  match v with
  | none => .null
  | some l => .arr (l.map textEntityJ)

def reactionRecentJ (r : ReactionRecent) : JVal :=
  .obj [("from_", .str r.from_), ("from_id", .str r.from_id), ("date", .str r.date)]

def reactionJ (r : RawReaction) : JVal :=
  .obj [("type", .str r.type), ("count", .int r.count), ("emoji", .str r.emoji),
        ("recent", .arr (r.recent.map reactionRecentJ))]

def optReactionsJ (v : Option (List RawReaction)) : JVal :=
  match v with
  | none => .null
  | some l => .arr (l.map reactionJ)

/-- Pydantic v1 `Message.dict()`: every field, by field name, in
declaration order. -/
def mDict (m : RawMessage) : List (String × JVal) :=
  [("id", optIntJ m.id),
   ("type", .str m.type),
   ("date", .str m.date),
   ("date_unixtime", optStrJ m.date_unixtime),
   ("from_", .str m.from_),
   ("from_id", optStrJ m.from_id),
   ("text", textJ m.text),
   ("text_entities", optEntitiesJ m.text_entities),
   ("edited", optStrJ m.edited),
   ("edited_unixtime", optStrJ m.edited_unixtime),
   ("reply_to_message_id", optIntJ m.reply_to_message_id),
   ("forwarded_from", optStrJ m.forwarded_from),
   ("photo", optStrJ m.photo),
   ("width", optIntJ m.width),
   ("height", optIntJ m.height),
   ("file", optStrJ m.file),
   ("file_name", optStrJ m.file_name),
   ("thumbnail", optStrJ m.thumbnail),
   ("media_type", optStrJ m.media_type),
   ("mime_type", optStrJ m.mime_type),
   ("duration_seconds", optIntJ m.duration_seconds),
   ("reactions", optReactionsJ m.reactions)]

/-! ### `refiner/models/refined.py` — the target rows -/

structure ChatRow where
  chat_id : Nat
  tg_chat_id : Option Int
  name : Option String
  character_slug : Option String
  character_level : Option Int
  uploader_id : Option String

structure MessageRow where
  message_rowid : Nat
  chat_id : Nat
  message_id : Int
  type : String
  date_iso : String
  date_unixtime : Option Int
  edited_at_iso : String
  reply_to_id : Option Int
  media_type : Option String
  mime_type : Option String
  duration_s : Option Int
  from_pseudo_id : Option String
  forwarded_from_pseudo_id : Option String
  text_raw : String
  content_json : Option (List (String × JVal))

structure EntityRow where
  message_id : Nat
  entity_type : String
  entity_text : String

structure ReactionRow where
  message_id : Nat
  emoji : String
  count : Int

/-- The staged contents of one SQLAlchemy session, with the autoincrement
counters the flushes draw surrogate ids from. -/
structure St where
  users : List String
  chats : List ChatRow
  messages : List MessageRow
  entities : List EntityRow
  reactions : List ReactionRow
  nextChatId : Nat
  nextMsgRowId : Nat

def St.empty : St := ⟨[], [], [], [], [], 1, 1⟩

/-- The error taxonomy: pydantic `ValidationError`, transform-stage errors
(`ValueError` from `_iso`), and the storage collaborator's errors. -/
inductive PipeErr where
  | validation (msg : String)
  | transform (msg : String)
  | storage (msg : String)
deriving DecidableEq

/-- `session.merge(UserPseudo(pseudo_id=pid))`: an idempotent upsert on the
primary key. -/
def mergeUser (s : St) (pid : String) : St :=
  if pid ∈ s.users then s else {s with users := s.users ++ [pid]}

/-- Python truthiness of an optional string (`if from_hash` / `if
m.forwarded_from`): present and non-empty. -/
def truthy (x : Option String) : Bool := x.getD "" != ""

/-! ### `refiner/transformer/telegram_chat_transformer.py` -/

/-- Text assembly: a flat string, or the concatenation of the runs' `.text`
(every element of a validated non-string `text` is a `TextEntity`). -/
def assembleText (t : String ⊕ List TextEntity) : String :=
  match t with
  | .inl s => s
  | .inr l => String.join (l.map (fun te => te.text))

/-- The residual payload: all `Message.dict()` entries except `text`,
`text_entities`, `id`, then `file_name` popped. -/
def buildContent (m : RawMessage) : List (String × JVal) :=
  ((mDict m).filter
    (fun kv => !(["text", "text_entities", "id"].contains kv.1))).filter
    (fun kv => kv.1 != "file_name")

/-- The `from_hash` merge step of the message loop (hasher `h` stands for
`hash_id(·, settings.HASH_SALT)`). -/
def mergeHash (hv : Option String) (cache : List String) (s : St) : List String × St :=
  match hv with
  | some v => if truthy (some v) && !(cache.contains v) then (cache ++ [v], mergeUser s v) else (cache, s)
  | none => (cache, s)

/-- Row construction for one message (everything before `session.add`);
`Except` carries the `ValueError` that `_iso` may raise. -/
def msgRowOf (o : NlpOracle) (now : String) (cid rowid : Nat)
    (fromHash fwdHash : Option String) (m : RawMessage) : Except PipeErr MessageRow :=
  match _iso now (some m.date) with
  | .error e => .error (.transform e)
  | .ok dIso =>
    match _iso now m.edited with
    | .error e => .error (.transform e)
    | .ok eIso =>
      .ok
        { message_rowid := rowid
          chat_id := cid
          message_id := (m.id.getD 0 : Int)
          type := m.type
          date_iso := dIso
          date_unixtime := _to_int m.date_unixtime
          edited_at_iso := eIso
          reply_to_id := m.reply_to_message_id
          media_type := m.media_type
          mime_type := m.mime_type
          duration_s := m.duration_seconds
          from_pseudo_id := fromHash
          forwarded_from_pseudo_id := fwdHash
          text_raw := scrub_text_advanced o (assembleText m.text)
          content_json := if (buildContent m).isEmpty then none else some (buildContent m) }

/-- The storage collaborator's duplicate check at `session.flush()`,
modelled from `UniqueConstraint("chat_id", "message_id")` declared on the
`messages` table: a second insert of the same pair fails. -/
def dupMessage (s : St) (cid : Nat) (mid : Int) : Bool :=
  s.messages.any (fun r => r.chat_id == cid && r.message_id == mid)

def entityRowsOf (o : NlpOracle) (rowid : Nat) (m : RawMessage) : List EntityRow :=
  (m.text_entities.getD []).map
    (fun te => ⟨rowid, te.type, scrub_text_advanced o te.text⟩)

def reactionRowsOf (rowid : Nat) (m : RawMessage) : List ReactionRow :=
  (m.reactions.getD []).map (fun rx => ⟨rowid, rx.emoji, rx.count⟩)

/-- The message loop of `TelegramChatTransformer.transform`.  On an error
the rows staged so far stay in the session and the error propagates. -/
def msgLoop (h : Option String → Option String) (o : NlpOracle) (now : String)
    (cid : Nat) : List String → List RawMessage → St → Except PipeErr Unit × St
  | _, [], s => (.ok (), s)
  | cache, m :: ms, s =>
    let fromHash := h m.from_id
    let p1 := mergeHash fromHash cache s
    let fwdHash := if truthy m.forwarded_from then h m.forwarded_from else none
    let p2 := mergeHash fwdHash p1.1 p1.2
    match msgRowOf o now cid p2.2.nextMsgRowId fromHash fwdHash m with
    | .error e => (.error e, p2.2)
    | .ok row =>
      let dup := dupMessage p2.2 cid row.message_id
      let s3 := {p2.2 with messages := p2.2.messages ++ [row],
                           nextMsgRowId := p2.2.nextMsgRowId + 1}
      if dup then
        (.error (.storage "UNIQUE constraint failed: uq_chat_message"), s3)
      else
        let s4 := {s3 with entities := s3.entities ++ entityRowsOf o row.message_rowid m,
                           reactions := s3.reactions ++ reactionRowsOf row.message_rowid m}
        msgLoop h o now cid p2.1 ms s4

/-- `TelegramChatTransformer.transform` after a successful parse: stage the
chat row, flush to obtain its surrogate id, then run the message loop with
an empty per-invocation identity cache. -/
def transformChat (h : Option String → Option String) (o : NlpOracle) (now : String)
    (raw : RawChat) (s : St) : Except PipeErr Unit × St :=
  let chatRow : ChatRow :=
    { chat_id := s.nextChatId
      tg_chat_id := raw.id
      name := h raw.name
      character_slug := raw.character_slug
      character_level := raw.character_level
      uploader_id := h (raw.uploader_tg_id.map toString) }
  let s1 := {s with chats := s.chats ++ [chatRow], nextChatId := s.nextChatId + 1}
  msgLoop h o now chatRow.chat_id [] raw.messages s1

/-- `transform` including the parse step; the outer validation layer's
verdict enters as an `Except` (on failure the code logs and re-raises, so
no rows are staged). -/
def runTransform (h : Option String → Option String) (o : NlpOracle) (now : String)
    (pr : Except String RawChat) : St → Except PipeErr Unit × St :=
  fun s =>
    match pr with
    | .error e => (.error (.validation e), s)
    | .ok raw => transformChat h o now raw s

/-! ### `refiner/transformer/base_transformer.py` -/

/-- What `DataTransformer.process` leaves behind: the returned-or-raised
outcome, the rows made durable by its own commit (if it managed the
session), and the state of the caller's session (if one was passed in). -/
structure ProcOutcome where
  result : Except PipeErr Unit
  committed : Option St
  externalSession : Option St

/-- `DataTransformer.process`: with an external session it only runs
`transform`; with its own session it commits on success and rolls back
(discarding the session) before re-raising on failure. -/
def process (tf : St → Except PipeErr Unit × St) (ext : Option St) : ProcOutcome :=
  match ext with
  | some s =>
    let r := tf s
    { result := r.1, committed := none, externalSession := some r.2 }
  | none =>
    let r := tf St.empty
    match r.1 with
    | .ok _ => { result := .ok (), committed := some r.2, externalSession := none }
    | .error e => { result := .error e, committed := none, externalSession := none }

/-! ### `refiner/config.py` -/

structure Settings where
  INPUT_DIR : String
  OUTPUT_DIR : String
  REFINEMENT_ENCRYPTION_KEY : Option String
  HASH_SALT : Option String
  SCHEMA_NAME : String
  SCHEMA_VERSION : String
  SCHEMA_DESCRIPTION : String
  SCHEMA_DIALECT : String
  PINATA_API_KEY : Option String
  PINATA_API_SECRET : Option String

/-- `Settings()` from `refiner/config.py`: every field carries a declared
default (`HASH_SALT` and `REFINEMENT_ENCRYPTION_KEY` default to `None`),
so construction succeeds whatever the environment provides; a missing
`HASH_SALT` simply loads as `None`. -/
def loadSettings (env : String → Option String) : Except String Settings :=
  .ok
    { INPUT_DIR := (env "INPUT_DIR").getD "/input"
      OUTPUT_DIR := (env "OUTPUT_DIR").getD "/output"
      REFINEMENT_ENCRYPTION_KEY := env "REFINEMENT_ENCRYPTION_KEY"
      HASH_SALT := env "HASH_SALT"
      SCHEMA_NAME := (env "SCHEMA_NAME").getD "vChars Chats"
      SCHEMA_VERSION := (env "SCHEMA_VERSION").getD "0.0.1"
      SCHEMA_DESCRIPTION := (env "SCHEMA_DESCRIPTION").getD "Schema for Telegram and AI chats from vChars DataDAO"
      SCHEMA_DIALECT := (env "SCHEMA_DIALECT").getD "sqlite"
      PINATA_API_KEY := env "PINATA_API_KEY"
      PINATA_API_SECRET := env "PINATA_API_SECRET" }

/-! ### Concrete fixtures -/

/-- The spec-modelled hasher with a fixed salt, `hash_id(·, "salt")`. -/
def specHash (v : Option String) : Option String := hash_id v "salt"

/-- An oracle for texts that never reach the NLP stage (detection fails
closed, the model returns no entities). -/
def nilOracle : NlpOracle := ⟨fun _ => none, fun _ _ => []⟩

/-- A minimal validated message (only the required fields populated). -/
def emptyMsg : RawMessage :=
  { id := none, type := "message", date := "2025-05-11T18:45:02",
    date_unixtime := none, from_ := "John Doe", from_id := none,
    text := .inl "", text_entities := none, edited := none,
    edited_unixtime := none, reply_to_message_id := none,
    forwarded_from := none, photo := none, width := none, height := none,
    file := none, file_name := none, thumbnail := none, media_type := none,
    mime_type := none, duration_seconds := none, reactions := none }

/-- A message carrying every identifying field plus a filename. -/
def sampleMsg : RawMessage :=
  { emptyMsg with id := some 1, from_id := some "user12345",
                  forwarded_from := some "Jane Roe", file_name := some "secret.pdf" }

def msgWithId (i : Option Int) : RawMessage := { emptyMsg with id := i }

def chatWithMsgs (ms : List RawMessage) : RawChat :=
  { name := some "Secret Group", type := "private", id := some 1,
    character_slug := none, character_level := none, uploader_tg_id := some 42,
    messages := ms }

def sampleChat : RawChat := chatWithMsgs [sampleMsg]

/-! ### Helper lemmas -/

theorem mergeHash_messages (hv : Option String) (cache : List String) (s : St) :
    (mergeHash hv cache s).2.messages = s.messages := by
  cases hv with
  | none => rfl
  | some v =>
    simp only [mergeHash, mergeUser]
    split
    · split <;> rfl
    · rfl

/-! ### Claim C4 — missing `HASH_SALT` -/

/-- Claim C4 (corrected): when `HASH_SALT` is absent from the environment,
`Settings()` loads successfully with `HASH_SALT = None` and no
configuration error is raised before document processing; `transform`
contains no salt-presence gate, so processing proceeds for any hasher and
a missing salt could only surface inside `hash_id` calls mid-pipeline. -/
theorem C4_salt_absent_no_config_error (env : String → Option String)
    (h : Option String → Option String) :
    (loadSettings env).isOk = true ∧
    (loadSettings env).toOption.map Settings.HASH_SALT = some (env "HASH_SALT") ∧
    (runTransform h nilOracle "NOW" (.ok (chatWithMsgs [])) St.empty).1 = .ok () ∧
    (runTransform h nilOracle "NOW" (.ok (chatWithMsgs [])) St.empty).2.chats.length = 1 := by
  exact ⟨rfl, rfl, rfl, rfl⟩

/-- Claim C4, counterexample to the claim as stated: the all-absent
environment produces no fatal configuration error — settings construction
succeeds and carries `HASH_SALT = none`. -/
theorem C4_counterexample :
    (loadSettings (fun _ => none)).isOk = true ∧
    (loadSettings (fun _ => none)).toOption.map Settings.HASH_SALT = some none := ⟨rfl, rfl⟩

/-! ### Claim C2 — the residual payload's keys -/

/-- Claim C2 (corrected): the residual payload never contains the keys
`file_name`, `text`, `text_entities`, `id`, and `content_json` is exactly
the payload when non-empty and null otherwise; the keys of the other
explicitly mapped columns are NOT excluded (see the counterexample). -/
theorem C2_residual_payload_keys (m : RawMessage) (o : NlpOracle) (now : String)
    (cid rowid : Nat) (fh fwh : Option String) :
    ((buildContent m).all
      (fun kv => kv.1 != "file_name" && kv.1 != "text" && kv.1 != "text_entities" && kv.1 != "id")
      = true) ∧
    ((msgRowOf o now cid rowid fh fwh m).toOption.map MessageRow.content_json =
      (msgRowOf o now cid rowid fh fwh m).toOption.map
        (fun _ => if (buildContent m).isEmpty then none else some (buildContent m))) := by
  constructor
  · simp only [List.all_eq_true]
    intro kv hkv
    simp only [buildContent, List.mem_filter] at hkv
    obtain ⟨⟨-, h1⟩, h2⟩ := hkv
    simp only [List.contains_cons, List.contains_nil, Bool.or_eq_true, beq_iff_eq,
      Bool.not_eq_true', Bool.or_eq_false_iff, beq_eq_false_iff_ne] at h1
    simp only [bne_iff_ne] at h2
    simp [bne_iff_ne, h1.1, h1.2.1, h1.2.2.1, h2]
  · unfold msgRowOf
    split
    · rfl
    · split
      · rfl
      · rfl

/-- Claim C2, counterexample to the claim as stated: the payload of a
concrete message retains the keys of explicitly mapped columns (`type`,
`date`, `forwarded_from`, …), both in `buildContent` and in the stored
`content_json` of the built row. -/
theorem C2_counterexample :
    (buildContent sampleMsg).lookup "type" = some (.str "message") ∧
    (buildContent sampleMsg).lookup "date" = some (.str "2025-05-11T18:45:02") ∧
    (buildContent sampleMsg).lookup "media_type" = some .null ∧
    ((msgRowOf nilOracle "NOW" 1 1 none none sampleMsg).toOption.map
      (fun r => (r.content_json.getD []).lookup "type")) = some (some (.str "message")) := by
  refine ⟨rfl, rfl, rfl, rfl⟩

/-! ### Claim C1 — raw identifiers in persisted rows -/

/-- Claim C1 (code bug): running the transformer on a message whose sender
id is `"user12345"`, display name `"John Doe"` and forwarded-from
`"Jane Roe"` succeeds and stages a Message row whose persisted
`content_json` still holds all three raw identifiers — the residual
payload only strips `text`, `text_entities`, `id` and `file_name`, so the
raw identity fields reach persisted storage in spite of the pseudonymised
columns next to them. -/
theorem C1_raw_ids_reach_content_json :
    ((transformChat specHash nilOracle "NOW" sampleChat St.empty).1 = .ok ()) ∧
    ((transformChat specHash nilOracle "NOW" sampleChat St.empty).2.messages.map
      (fun r => (r.content_json.getD []).lookup "from_id")) = [some (.str "user12345")] ∧
    ((transformChat specHash nilOracle "NOW" sampleChat St.empty).2.messages.map
      (fun r => (r.content_json.getD []).lookup "from_")) = [some (.str "John Doe")] ∧
    ((transformChat specHash nilOracle "NOW" sampleChat St.empty).2.messages.map
      (fun r => (r.content_json.getD []).lookup "forwarded_from")) = [some (.str "Jane Roe")] ∧
    ((process (runTransform specHash nilOracle "NOW" (.ok sampleChat)) none).committed.map
      (fun st => st.messages.map (fun r => (r.content_json.getD []).lookup "from_id"))) =
      some [some (.str "user12345")] := by
  refine ⟨rfl, rfl, rfl, rfl, rfl⟩

/-! ### Claim C8 — duplicate original message ids -/

/-- `msgRowOf` in the successful case: the built row, field by field. -/
theorem msgRowOf_fields (o : NlpOracle) (now : String) (cid : Nat) {rid : Nat}
    {fh fwh : Option String} (m : RawMessage) {d e : String}
    (hd : _iso now (some m.date) = .ok d) (he : _iso now m.edited = .ok e) :
    msgRowOf o now cid rid fh fwh m = .ok
      { message_rowid := rid, chat_id := cid, message_id := m.id.getD 0, type := m.type,
        date_iso := d, date_unixtime := _to_int m.date_unixtime, edited_at_iso := e,
        reply_to_id := m.reply_to_message_id, media_type := m.media_type,
        mime_type := m.mime_type, duration_s := m.duration_seconds, from_pseudo_id := fh,
        forwarded_from_pseudo_id := fwh,
        text_raw := scrub_text_advanced o (assembleText m.text),
        content_json := if (buildContent m).isEmpty then none else some (buildContent m) } := by
  unfold msgRowOf
  rw [hd, he]

/-- The message loop on two row-constructible messages with colliding
`m.id or 0` values: the second flush hits the uniqueness constraint. -/
theorem msgLoop_two_duplicate (h : Option String → Option String) (o : NlpOracle)
    (now : String) (cid : Nat) (m1 m2 : RawMessage) (cache : List String) (s : St)
    (hs : s.messages = [])
    {d1 e1 d2 e2 : String}
    (hd1 : _iso now (some m1.date) = .ok d1) (he1 : _iso now m1.edited = .ok e1)
    (hd2 : _iso now (some m2.date) = .ok d2) (he2 : _iso now m2.edited = .ok e2)
    (hid : m1.id.getD 0 = m2.id.getD 0) :
    (msgLoop h o now cid cache [m1, m2] s).1 =
      .error (.storage "UNIQUE constraint failed: uq_chat_message") := by
  simp only [msgLoop, msgRowOf_fields o now cid m1 hd1 he1, msgRowOf_fields o now cid m2 hd2 he2,
    dupMessage, mergeHash_messages, hs, List.any_nil, Bool.false_eq_true, if_false,
    List.nil_append, List.any_cons, hid, beq_self_eq_true, Bool.and_self, Bool.or_false,
    if_true]

/-- Claim C8 (confirmed): for every hasher, oracle and chat of two
row-constructible messages sharing an original message id (`m.id or 0`),
the second insert's flush hits the `(chat_id, message_id)` uniqueness
constraint; the error propagates as a storage error and the chat is never
committed. -/
theorem C8_duplicate_id_storage_error (h : Option String → Option String) (o : NlpOracle)
    (now : String) (chat : RawChat) (m1 m2 : RawMessage)
    (hmsgs : chat.messages = [m1, m2])
    {d1 e1 d2 e2 : String}
    (hd1 : _iso now (some m1.date) = .ok d1) (he1 : _iso now m1.edited = .ok e1)
    (hd2 : _iso now (some m2.date) = .ok d2) (he2 : _iso now m2.edited = .ok e2)
    (hid : m1.id.getD 0 = m2.id.getD 0) :
    ((transformChat h o now chat St.empty).1 =
      .error (.storage "UNIQUE constraint failed: uq_chat_message")) ∧
    ((process (runTransform h o now (.ok chat)) none).committed = none) := by
  have key : (transformChat h o now chat St.empty).1 =
      .error (.storage "UNIQUE constraint failed: uq_chat_message") := by
    unfold transformChat
    rw [hmsgs]
    exact msgLoop_two_duplicate h o now _ m1 m2 [] _ rfl hd1 he1 hd2 he2 hid
  refine ⟨key, ?_⟩
  simp only [process, runTransform]
  rw [key]

/-- Claim C8 witness: a concrete chat whose two messages both carry
original id 5 aborts with the storage error and commits nothing. -/
theorem C8_duplicate_id_storage_error_witness :
    ((transformChat specHash nilOracle "NOW"
        (chatWithMsgs [msgWithId (some 5), msgWithId (some 5)]) St.empty).1 =
      .error (.storage "UNIQUE constraint failed: uq_chat_message")) ∧
    ((process (runTransform specHash nilOracle "NOW"
        (.ok (chatWithMsgs [msgWithId (some 5), msgWithId (some 5)]))) none).committed = none) :=
  C8_duplicate_id_storage_error specHash nilOracle "NOW"
    (chatWithMsgs [msgWithId (some 5), msgWithId (some 5)])
    (msgWithId (some 5)) (msgWithId (some 5)) rfl rfl rfl rfl rfl rfl

/-! ### Claim C10 — id-less messages collide at zero -/

/-- Claim C10 (confirmed): a validated message whose original id is null is
written with `message_id = 0` (`m.id or 0`), so any two id-less
row-constructible messages in the same chat collide on
`(chat_id, message_id)` and the chat's write aborts with the uniqueness
storage error. -/
theorem C10_idless_messages_collide (h : Option String → Option String) (o : NlpOracle)
    (now : String) (chat : RawChat) (m1 m2 : RawMessage)
    (hmsgs : chat.messages = [m1, m2]) (hid1 : m1.id = none) (hid2 : m2.id = none)
    {d1 e1 d2 e2 : String}
    (hd1 : _iso now (some m1.date) = .ok d1) (he1 : _iso now m1.edited = .ok e1)
    (hd2 : _iso now (some m2.date) = .ok d2) (he2 : _iso now m2.edited = .ok e2) :
    (∀ (cid rid : Nat) (fh fwh : Option String),
      (msgRowOf o now cid rid fh fwh m1).toOption.map MessageRow.message_id = some 0) ∧
    ((transformChat h o now chat St.empty).1 =
      .error (.storage "UNIQUE constraint failed: uq_chat_message")) := by
  constructor
  · intro cid rid fh fwh
    rw [msgRowOf_fields o now cid m1 hd1 he1, hid1]
    rfl
  · unfold transformChat
    rw [hmsgs]
    exact msgLoop_two_duplicate h o now _ m1 m2 [] _ rfl hd1 he1 hd2 he2
      (by rw [hid1, hid2])

/-- Claim C10 witness: a concrete chat of two id-less messages stages rows
with `message_id = 0` and aborts at the second one. -/
theorem C10_idless_messages_collide_witness :
    ((msgRowOf nilOracle "NOW" 1 1 none none (msgWithId none)).toOption.map
      MessageRow.message_id = some 0) ∧
    ((transformChat specHash nilOracle "NOW"
        (chatWithMsgs [msgWithId none, msgWithId none]) St.empty).1 =
      .error (.storage "UNIQUE constraint failed: uq_chat_message")) :=
  have h := C10_idless_messages_collide specHash nilOracle "NOW"
    (chatWithMsgs [msgWithId none, msgWithId none]) (msgWithId none) (msgWithId none)
    rfl rfl rfl rfl rfl rfl rfl
  ⟨h.1 1 1 none none, h.2⟩

/-! ### Claim C5 — failure semantics of `process` -/

/-- The session a transform runs against: the caller's, or a fresh one. -/
def initSt (ext : Option St) : St := ext.getD St.empty

/-- Claim C5 (confirmed): `process` re-raises the transform's exception
unchanged; it commits nothing on any failure and, when it manages its own
session, commits exactly the fully staged session on success (never a
partial chat) after rolling the session back on error; a validation
failure stages no rows at all (the session passes through untouched). -/
theorem C5_process_atomicity (h : Option String → Option String) (o : NlpOracle)
    (now : String) (pr : Except String RawChat) (ext : Option St) :
    ((process (runTransform h o now pr) ext).result =
      (runTransform h o now pr (initSt ext)).1) ∧
    ((process (runTransform h o now pr) ext).committed =
      match ext, (runTransform h o now pr (initSt ext)).1 with
      | some _, _ => none
      | none, .ok _ => some (runTransform h o now pr St.empty).2
      | none, .error _ => none) ∧
    (∀ v s, runTransform h o now (.error v) s = (.error (.validation v), s)) := by
  refine ⟨?_, ?_, fun v s => rfl⟩
  · cases ext with
    | some s => rfl
    | none =>
      simp only [process, initSt, Option.getD_none]
      split <;> simp_all
  · cases ext with
    | some s => rfl
    | none =>
      simp only [process, initSt, Option.getD_none]
      split <;> simp_all

/-! ### Claim C9 — `hash_id` determinism and digest shape -/

theorem sha256Round_length (st : List Nat) (k w : Nat) :
    (sha256Round st k w).length = st.length := by
  unfold sha256Round
  split
  · simp
  · rfl

theorem foldl_sha256Round_length (l : List (Nat × Nat)) (hs : List Nat) :
    (l.foldl (fun st p => sha256Round st p.1 p.2) hs).length = hs.length := by
  induction l generalizing hs with
  | nil => rfl
  | cons p t ih => simp [List.foldl_cons, ih, sha256Round_length]

theorem sha256Block_length (hs block : List Nat) (h : hs.length = 8) :
    (sha256Block hs block).length = 8 := by
  simp [sha256Block, List.length_zip, foldl_sha256Round_length, h]

theorem sha256Words_length (msg : List Nat) : (sha256Words msg).length = 8 := by
  have main : ∀ (bs : List (List Nat)) (hs : List Nat), hs.length = 8 →
      (bs.foldl sha256Block hs).length = 8 := by
    intro bs
    induction bs with
    | nil => intro hs h; exact h
    | cons b t ih => intro hs h; exact ih _ (sha256Block_length _ _ h)
  exact main _ H256init rfl

theorem hex8_length (w : Nat) : (hex8 w).length = 8 := by
  simp [hex8]

theorem flatMap_hex8_length (l : List Nat) : (l.flatMap hex8).length = 8 * l.length := by
  induction l with
  | nil => rfl
  | cons w t ih => simp [ih, hex8_length]; ring

theorem hexDigit_getD_mem : ∀ k, k < 16 → hexDigits.getD k '0' ∈ hexDigits := by decide

theorem hex8_mem (w : Nat) : ∀ c ∈ hex8 w, c ∈ hexDigits := by
  intro c hc
  simp only [hex8, List.mem_map, List.mem_range] at hc
  obtain ⟨i, -, rfl⟩ := hc
  exact hexDigit_getD_mem _ (Nat.mod_lt _ (by norm_num))

theorem sha256Hex_length (s : String) : (sha256Hex s).length = 64 := by
  show (sha256Hex s).data.length = 64
  show ((sha256Words (strBytes s)).flatMap hex8).length = 64
  rw [flatMap_hex8_length, sha256Words_length]

theorem sha256Hex_mem (s : String) : ∀ c ∈ (sha256Hex s).data, c ∈ hexDigits := by
  intro c hc
  have hc2 : c ∈ (sha256Words (strBytes s)).flatMap hex8 := hc
  simp only [List.mem_flatMap] at hc2
  obtain ⟨w, -, hw⟩ := hc2
  exact hex8_mem w c hw

/-- Claim C9 (confirmed, spec-modelled since `refiner/utils/encrypt.py` is
absent from the sources): `hash_id` is deterministic — same raw value and
salt always yield the same token — and the token is exactly 64 hexadecimal
characters, a hex-encoded SHA-256 digest of the salt concatenated with the
raw value. -/
theorem C9_hash_id_deterministic_64_hex (u salt : String) :
    hash_id (some u) salt = hash_id (some u) salt ∧
    ∃ tok, hash_id (some u) salt = some tok ∧ tok = sha256Hex (salt ++ u) ∧
      tok.length = 64 ∧ ∀ c ∈ tok.data, c ∈ hexDigits :=
  ⟨rfl, sha256Hex (salt ++ u), rfl, rfl, sha256Hex_length _, sha256Hex_mem _⟩

/-! ### Claim C6 — the Cyrillic-name shortcut bypasses the NLP fallback -/

/-- Claim C6 (confirmed): whenever the two-consecutive-capitalized-
Cyrillic-word pattern matches the cascade's output, `scrub_text_advanced`
returns the pure regex substitution that replaces each matched word pair
with the two tags `[PERSON] [PERSON]` and returns immediately: the result
is the same for every language-detection and entity-model oracle, so
neither is ever consulted on such a text. -/
theorem C6_cyrillic_shortcut (o o2 : NlpOracle) (text : String)
    (hcy : searchRE CYRILLIC_NAME_RE none (cascade text).data = true) :
    scrub_text_advanced o text =
      ⟨reSub CYRILLIC_NAME_RE "[PERSON] [PERSON]".data (cascade text).data⟩ ∧
    scrub_text_advanced o text = scrub_text_advanced o2 text := by
  have hne : text ≠ "" := by
    intro h
    rw [h] at hcy
    exact absurd hcy (by decide)
  have hmain : ∀ oo : NlpOracle, scrub_text_advanced oo text =
      ⟨reSub CYRILLIC_NAME_RE "[PERSON] [PERSON]".data (cascade text).data⟩ := by
    intro oo
    simp only [scrub_text_advanced, if_neg hne, hcy, if_true]
  exact ⟨hmain o, (hmain o).trans (hmain o2).symm⟩

/-- Claim C6 witness: on `"Иван Петров"` the pattern fires after the
cascade and the scrub returns exactly two person tags. -/
theorem C6_cyrillic_shortcut_witness :
    scrub_text_advanced nilOracle "Иван Петров" = "[PERSON] [PERSON]" := by
  have h := (C6_cyrillic_shortcut nilOracle nilOracle "Иван Петров" (by decide)).1
  rw [h]
  decide

/-! ### Claim C3 — the NLP-fallback substitution

The descending-offset token loop is compared against a simultaneous
per-token replacement (`simulReplace`), which is what "offsets stay valid"
means semantically. -/

/-- One past a token's last character. -/
def tokEnd (t : NerTok) : Nat := t.idx + t.text.length

/-- The tag spliced in for one token. -/
def tagChars (t : NerTok) : Chars := ("[" ++ tagOf t ++ "]").data

/-- Simultaneous replacement of every token span, scanning left to right
from `pos`. -/
def simulReplace : Nat → List NerTok → Chars → Chars
  | pos, [], text => text.drop pos
  | pos, t :: ts, text =>
      (text.take t.idx).drop pos ++ tagChars t ++ simulReplace (tokEnd t) ts text

/-- Well-formed model output: non-empty tokens in document order with
pairwise disjoint spans inside the text (what spaCy's tokenization
guarantees for `doc.ents`). -/
def spaced (textLen : Nat) : Nat → List NerTok → Bool
  | pos, [] => decide (pos ≤ textLen)
  | pos, t :: ts =>
      decide (pos ≤ t.idx) && decide (0 < t.text.length) && spaced textLen (tokEnd t) ts

theorem spliceTok_eq (text : Chars) (t : NerTok) :
    spliceTok text t = text.take t.idx ++ tagChars t ++ text.drop (tokEnd t) := rfl

theorem spaced_le {L pos : Nat} : ∀ {ts : List NerTok}, spaced L pos ts = true → pos ≤ L := by
  intro ts
  induction ts generalizing pos with
  | nil => intro h; exact of_decide_eq_true h
  | cons t ts ih =>
    intro h
    simp only [spaced, Bool.and_eq_true, decide_eq_true_eq] at h
    have h1 : tokEnd t ≤ L := ih h.2
    have h2 : t.idx ≤ tokEnd t := Nat.le_add_right _ _
    omega

theorem spaced_mono {L p q : Nat} {ts : List NerTok} (hpq : p ≤ q)
    (h : spaced L q ts = true) : spaced L p ts = true := by
  cases ts with
  | nil =>
    simp only [spaced, decide_eq_true_eq] at h ⊢
    omega
  | cons t ts =>
    simp only [spaced, Bool.and_eq_true, decide_eq_true_eq] at h ⊢
    exact ⟨⟨by omega, h.1.2⟩, h.2⟩

theorem spaced_mem {L pos : Nat} : ∀ {ts : List NerTok}, spaced L pos ts = true →
    ∀ y ∈ ts, pos ≤ y.idx := by
  intro ts
  induction ts generalizing pos with
  | nil => intro _ y hy; cases hy
  | cons t ts ih =>
    intro h y hy
    simp only [spaced, Bool.and_eq_true, decide_eq_true_eq] at h
    cases hy with
    | head => exact h.1.1
    | tail _ hy =>
      have := ih h.2 y hy
      have h2 : t.idx ≤ tokEnd t := Nat.le_add_right _ _
      omega

theorem insertDesc_of_all_lt (x : NerTok) : ∀ (l : List NerTok),
    (∀ y ∈ l, x.idx < y.idx) → insertDesc x l = l ++ [x] := by
  intro l
  induction l with
  | nil => intro _; rfl
  | cons y ys ih =>
    intro h
    have hy : x.idx < y.idx := h y (List.mem_cons_self _ _)
    simp only [insertDesc, if_pos hy, List.cons_append]
    rw [ih (fun z hz => h z (List.mem_cons_of_mem _ hz))]

theorem sortByIdxDesc_of_spaced {L pos : Nat} : ∀ {ts : List NerTok},
    spaced L pos ts = true → sortByIdxDesc ts = ts.reverse := by
  intro ts
  induction ts generalizing pos with
  | nil => intro _; rfl
  | cons t ts ih =>
    intro h
    simp only [spaced, Bool.and_eq_true, decide_eq_true_eq] at h
    show insertDesc t (sortByIdxDesc ts) = (t :: ts).reverse
    rw [ih h.2]
    rw [insertDesc_of_all_lt t ts.reverse ?_]
    · rw [List.reverse_cons]
    · intro y hy
      rw [List.mem_reverse] at hy
      have h1 := spaced_mem h.2 y hy
      have h2 : t.idx < tokEnd t := by
        have := h.1.2
        simp only [tokEnd]
        omega
      omega

theorem dropTakeDrop (l : Chars) (p q : Nat) (hpq : p ≤ q) (hq : q ≤ l.length) :
    l.drop p = (l.take q).drop p ++ l.drop q := by
  conv_lhs => rw [← List.take_append_drop q l]
  rw [List.drop_append_of_le_length]
  rw [List.length_take]
  omega

theorem simul_split {L : Nat} (text : Chars) (hL : L = text.length)
    (p q : Nat) (hpq : p ≤ q) :
    ∀ (ts : List NerTok), spaced L q ts = true →
    simulReplace p ts text = (text.take q).drop p ++ simulReplace q ts text := by
  intro ts h
  cases ts with
  | nil =>
    have hq : q ≤ text.length := hL ▸ spaced_le h
    simp only [simulReplace]
    exact dropTakeDrop text p q hpq hq
  | cons u us =>
    simp only [spaced, Bool.and_eq_true, decide_eq_true_eq] at h
    have hqu : q ≤ u.idx := h.1.1
    have huL : u.idx ≤ text.length := by
      have h1 : tokEnd u ≤ L := spaced_le h.2
      have h2 : u.idx ≤ tokEnd u := Nat.le_add_right _ _
      omega
    simp only [simulReplace]
    have key : (text.take u.idx).drop p = (text.take q).drop p ++ (text.take u.idx).drop q := by
      have hlen : q ≤ (text.take u.idx).length := by
        rw [List.length_take]
        omega
      have := dropTakeDrop (text.take u.idx) p q hpq hlen
      rw [List.take_take, Nat.min_eq_left hqu] at this
      exact this
    rw [key]
    simp [List.append_assoc]

theorem foldr_spliceTok_simul (text : Chars) : ∀ (ts : List NerTok),
    spaced text.length 0 ts = true →
    ts.foldr (fun t acc => spliceTok acc t) text = simulReplace 0 ts text := by
  intro ts
  induction ts with
  | nil => simp [simulReplace]
  | cons t ts ih =>
    intro h
    simp only [spaced, Bool.and_eq_true, decide_eq_true_eq] at h
    have hEndL : tokEnd t ≤ text.length := spaced_le h.2
    have hts0 : spaced text.length 0 ts = true := spaced_mono (Nat.zero_le _) h.2
    simp only [List.foldr_cons]
    rw [ih hts0]
    rw [simul_split text rfl 0 (tokEnd t) (Nat.zero_le _) ts h.2]
    rw [List.drop_zero]
    rw [spliceTok_eq]
    have hAlen : (text.take (tokEnd t)).length = tokEnd t := by
      rw [List.length_take]
      omega
    have htake : (text.take (tokEnd t) ++ simulReplace (tokEnd t) ts text).take t.idx =
        text.take t.idx := by
      rw [List.take_append_of_le_length
        (by rw [hAlen]; exact Nat.le_add_right _ _ : t.idx ≤ (text.take (tokEnd t)).length)]
      rw [List.take_take]
      have hmin : t.idx ⊓ tokEnd t = t.idx := Nat.min_eq_left (Nat.le_add_right _ _)
      rw [hmin]
    have hdrop : (text.take (tokEnd t) ++ simulReplace (tokEnd t) ts text).drop (tokEnd t) =
        simulReplace (tokEnd t) ts text := List.drop_left' hAlen
    rw [htake, hdrop]
    simp only [simulReplace, List.drop_zero]

/-- Claim C3 (corrected): for well-formed entity-model output (non-empty
tokens in document order with disjoint spans inside the text), the NLP
fallback replaces each TOKEN's exact character span — not each entity's
span — with a `[PERSON]` or `[LOCATION]` tag chosen by the token's entity
type, and processing the replacements from the highest start offset
backward leaves every pending offset valid: the loop computes exactly the
simultaneous replacement of all collected token spans. -/
theorem C3_tokenwise_backward_substitution (text : Chars) (ents : List NerEnt)
    (h : spaced text.length 0 (collectToks ents) = true) :
    nerRedact ents text = simulReplace 0 (collectToks ents) text := by
  unfold nerRedact
  rw [sortByIdxDesc_of_spaced h]
  rw [List.foldl_reverse]
  exact foldr_spliceTok_simul text _ h

/-- A two-token `GPE` entity, as the model tags `"New York"`. -/
def nyEnt : NerEnt := ⟨"GPE", [⟨0, "New", "GPE"⟩, ⟨4, "York", "GPE"⟩]⟩

/-- Claim C3 witness: the backward loop on the `"New York"` entity equals
the simultaneous per-token replacement. -/
theorem C3_tokenwise_backward_substitution_witness :
    nerRedact [nyEnt] "New York".data = simulReplace 0 (collectToks [nyEnt]) "New York".data ∧
    nerRedact [nyEnt] "New York".data = "[LOCATION] [LOCATION]".data :=
  ⟨C3_tokenwise_backward_substitution "New York".data [nyEnt] (by decide), by decide⟩

/-- Claim C3, counterexample to the claim as stated: the two-token entity
`"New York"` (span 0–8) is not replaced by a single `[LOCATION]` tag over
the entity's span; each token is replaced separately, giving two tags —
exactly what the repository's own test expects. -/
theorem C3_counterexample :
    nerRedact [nyEnt] "New York".data = "[LOCATION] [LOCATION]".data ∧
    nerRedact [nyEnt] "New York".data ≠ "[LOCATION]".data := by
  constructor
  · decide
  · decide

/-! ### Claim C7 — email redaction

Substring predicates (`Within m s`: `m` occurs contiguously in `s`), an
email-shape predicate matching `EMAIL_RE`, and the scan lemmas showing
what survives each substitution stage. -/

/-- `m` occurs contiguously inside `s`. -/
def Within (m s : Chars) : Prop := ∃ u v, s = u ++ m ++ v

/-- Boolean "is a leading segment of". -/
def leadsB : Chars → Chars → Bool
  | [], _ => true
  | _ :: _, [] => false
  | a :: m, b :: s => a == b && leadsB m s

/-- Boolean contiguous-substring check. -/
def hasSub (m : Chars) : Chars → Bool
  | [] => m.isEmpty
  | c :: rest => leadsB m (c :: rest) || hasSub m rest

/-- A string matching `EMAIL_RE` in full: non-empty local part, `@`,
non-empty first domain label, `.`, non-empty domain tail. -/
def EmailShape (m : Chars) : Prop :=
  ∃ l d1 d2, m = l ++ '@' :: (d1 ++ '.' :: d2) ∧ l ≠ [] ∧ d1 ≠ [] ∧ d2 ≠ [] ∧
    l.all emailLocalChar = true ∧ d1.all emailDomChar = true ∧ d2.all emailDom2Char = true

/-- The shape of a substitution tag: starts `[`, ends `]`, holds no `@`. -/
def TagLike (r : Chars) : Prop :=
  r.head? = some '[' ∧ r.getLast? = some ']' ∧ '@' ∉ r

instance tagLikeDecidable (r : Chars) : Decidable (TagLike r) := by
  unfold TagLike
  infer_instance

theorem leadsB_self_append : ∀ (m v : Chars), leadsB m (m ++ v) = true := by
  intro m v
  induction m with
  | nil => rfl
  | cons a m ih => simp [leadsB, ih]

theorem within_hasSub {m s : Chars} (h : Within m s) : hasSub m s = true := by
  obtain ⟨u, v, rfl⟩ := h
  induction u with
  | nil =>
    cases m with
    | nil => cases v <;> simp [hasSub, leadsB]
    | cons a mm =>
      simp only [List.nil_append, List.cons_append, hasSub, Bool.or_eq_true]
      exact Or.inl (by simpa using leadsB_self_append (a :: mm) v)
  | cons x u ih =>
    simp only [List.cons_append, hasSub, Bool.or_eq_true]
    exact Or.inr (by simpa [List.append_assoc] using ih)

theorem within_mem {m s : Chars} (h : Within m s) {x : Char} (hx : x ∈ m) : x ∈ s := by
  obtain ⟨u, v, rfl⟩ := h
  simp [hx]

theorem within_nil {m : Chars} (h : Within m []) : m = [] := by
  obtain ⟨u, v, huv⟩ := h
  have h2 := huv.symm
  simp only [List.append_eq_nil] at h2
  tauto

theorem within_cons_of {m t : Chars} (c : Char) (h : Within m t) : Within m (c :: t) := by
  obtain ⟨u, v, rfl⟩ := h
  exact ⟨c :: u, v, rfl⟩

theorem within_refl (m : Chars) : Within m m := ⟨[], [], by simp⟩

theorem within_cons_cases {m t : Chars} {c : Char} (h : Within m (c :: t)) :
    (∃ w, c :: t = m ++ w) ∨ Within m t := by
  obtain ⟨u, v, huv⟩ := h
  cases u with
  | nil => exact Or.inl ⟨v, by simpa using huv⟩
  | cons x u =>
    right
    simp only [List.cons_append, List.cons.injEq] at huv
    exact ⟨u, v, huv.2⟩

theorem leads_append_cases : ∀ (m A B : Chars), (∃ w, A ++ B = m ++ w) →
    (∃ w, A = m ++ w) ∨ (∃ s2, m = A ++ s2 ∧ ∃ w, B = s2 ++ w) := by
  intro m A
  induction A generalizing m with
  | nil => intro B h; exact Or.inr ⟨m, by simp, h⟩
  | cons a A ih =>
    intro B h
    obtain ⟨w, hw⟩ := h
    cases m with
    | nil => exact Or.inl ⟨a :: A, by simp⟩
    | cons mc m =>
      simp only [List.cons_append, List.cons.injEq] at hw
      obtain ⟨rfl, hw2⟩ := hw
      rcases ih m B ⟨w, hw2⟩ with ⟨w', hw'⟩ | ⟨s2, hs2, w', hw'⟩
      · exact Or.inl ⟨w', by simp [hw']⟩
      · exact Or.inr ⟨s2, by simp [hs2], w', hw'⟩

theorem within_append_cases {m : Chars} : ∀ {A B : Chars}, Within m (A ++ B) →
    Within m A ∨ Within m B ∨
    (∃ s1 s2, m = s1 ++ s2 ∧ s1 ≠ [] ∧ s2 ≠ [] ∧ (∃ u, A = u ++ s1) ∧ (∃ w, B = s2 ++ w)) := by
  intro A B h
  obtain ⟨u, v, huv⟩ := h
  induction u generalizing A with
  | nil =>
    simp only [List.nil_append] at huv
    rcases leads_append_cases m A B ⟨v, huv⟩ with ⟨w, hw⟩ | ⟨s2, hs2, w, hw⟩
    · exact Or.inl ⟨[], w, by simp [hw]⟩
    · by_cases hA : A = []
      · subst hA
        simp only [List.nil_append] at hs2
        exact Or.inr (Or.inl ⟨[], w, by simp [hw, hs2]⟩)
      · by_cases hs2e : s2 = []
        · subst hs2e
          refine Or.inl ⟨[], [], ?_⟩
          simp [hs2]
        · exact Or.inr (Or.inr ⟨A, s2, hs2, hA, hs2e, ⟨[], by simp⟩, ⟨w, hw⟩⟩)
  | cons x u ih =>
    cases A with
    | nil =>
      simp only [List.nil_append] at huv
      exact Or.inr (Or.inl ⟨x :: u, v, huv⟩)
    | cons a A' =>
      simp only [List.cons_append, List.cons.injEq] at huv
      obtain ⟨rfl, hw2⟩ := huv
      rcases ih hw2 with hA' | hB | ⟨s1, s2, hm, h1, h2, ⟨uu, hA'⟩, hBB⟩
      · obtain ⟨p, q, hpq⟩ := hA'
        exact Or.inl ⟨a :: p, q, by simp [hpq]⟩
      · exact Or.inr (Or.inl hB)
      · exact Or.inr (Or.inr ⟨s1, s2, hm, h1, h2, ⟨a :: uu, by simp [hA']⟩, hBB⟩)

theorem within_take {m l : Chars} (k : Nat) (h : Within m (l.take k)) : Within m l := by
  obtain ⟨u, v, huv⟩ := h
  refine ⟨u, v ++ l.drop k, ?_⟩
  conv_lhs => rw [← List.take_append_drop k l]
  simp [huv]

theorem within_drop {m l : Chars} (k : Nat) (h : Within m (l.drop k)) : Within m l := by
  obtain ⟨u, v, huv⟩ := h
  refine ⟨l.take k ++ u, v, ?_⟩
  conv_lhs => rw [← List.take_append_drop k l]
  simp [huv]

theorem head?_mem {α : Type} {l : List α} {x : α} (h : l.head? = some x) : x ∈ l := by
  cases l with
  | nil => cases h
  | cons a t =>
    simp only [List.head?_cons, Option.some.injEq] at h
    exact h ▸ List.mem_cons_self _ _

theorem getLast?_mem_own {α : Type} : ∀ {l : List α} {x : α}, l.getLast? = some x → x ∈ l := by
  intro l
  induction l with
  | nil => intro x h; cases h
  | cons a t ih =>
    intro x h
    cases t with
    | nil =>
      simp only [List.getLast?_singleton, Option.some.injEq] at h
      simp [h]
    | cons b t' =>
      rw [List.getLast?_cons_cons] at h
      exact List.mem_cons_of_mem _ (ih h)

theorem last_of_trailing {A s1 : Chars} {x : Char} (hlast : A.getLast? = some x)
    (hs1 : s1 ≠ []) (hA : ∃ u, A = u ++ s1) : x ∈ s1 := by
  obtain ⟨u, rfl⟩ := hA
  rw [List.getLast?_append_of_ne_nil _ hs1] at hlast
  exact getLast?_mem_own hlast

theorem head_of_leading {B s2 : Chars} {x : Char} (hhead : B.head? = some x)
    (hs2 : s2 ≠ []) (hB : ∃ w, B = s2 ++ w) : x ∈ s2 := by
  obtain ⟨w, rfl⟩ := hB
  cases s2 with
  | nil => exact absurd rfl hs2
  | cons b t =>
    simp only [List.cons_append, List.head?_cons, Option.some.injEq] at hhead
    exact hhead ▸ List.mem_cons_self _ _

/-! #### Character facts about email-shaped strings -/

theorem emailShape_ne_nil {m : Chars} (h : EmailShape m) : m ≠ [] := by
  obtain ⟨l, d1, d2, rfl, -⟩ := h
  simp

theorem emailShape_at_mem {m : Chars} (h : EmailShape m) : '@' ∈ m := by
  obtain ⟨l, d1, d2, rfl, -⟩ := h
  simp

theorem emailShape_chars {m : Chars} (h : EmailShape m) :
    ∀ c ∈ m, emailLocalChar c = true ∨ c = '@' ∨ emailDomChar c = true ∨ c = '.' ∨
      emailDom2Char c = true := by
  obtain ⟨l, d1, d2, rfl, -, -, -, hl, hd1, hd2⟩ := h
  intro c hc
  simp only [List.mem_append, List.mem_cons] at hc
  rw [List.all_eq_true] at hl hd1 hd2
  rcases hc with hc | hc | hc
  · exact Or.inl (hl c hc)
  · exact Or.inr (Or.inl hc)
  · rcases hc with hc | hc | hc
    · exact Or.inr (Or.inr (Or.inl (hd1 c hc)))
    · exact Or.inr (Or.inr (Or.inr (Or.inl hc)))
    · exact Or.inr (Or.inr (Or.inr (Or.inr (hd2 c hc))))

theorem emailShape_no_lbrack {m : Chars} (h : EmailShape m) : '[' ∉ m := by
  intro hmem
  rcases emailShape_chars h '[' hmem with hc | hc | hc | hc | hc <;> revert hc <;> decide

theorem emailShape_no_rbrack {m : Chars} (h : EmailShape m) : ']' ∉ m := by
  intro hmem
  rcases emailShape_chars h ']' hmem with hc | hc | hc | hc | hc <;> revert hc <;> decide

/-! #### Engine facts: consumed spans, minimum consumption, and a
completeness witness for `EMAIL_RE` -/

theorem mat_suffix : ∀ (r : RE) (prev : Option Char) (s : Chars) (pr : Option Char × Chars),
    pr ∈ mat r prev s → ∃ u, s = u ++ pr.2 := by
  intro r
  induction r with
  | cls f lo hi =>
    intro prev s pr hpr
    simp only [mat, List.mem_map] at hpr
    obtain ⟨k, -, rfl⟩ := hpr
    exact ⟨s.take k, (List.take_append_drop k s).symm⟩
  | seq a b iha ihb =>
    intro prev s pr hpr
    simp only [mat, List.mem_flatMap] at hpr
    obtain ⟨pr1, h1, h2⟩ := hpr
    obtain ⟨u1, hu1⟩ := iha prev s pr1 h1
    obtain ⟨u2, hu2⟩ := ihb pr1.1 pr1.2 pr h2
    exact ⟨u1 ++ u2, by rw [hu1, hu2, List.append_assoc]⟩
  | alt a b iha ihb =>
    intro prev s pr hpr
    simp only [mat, List.mem_append] at hpr
    rcases hpr with h | h
    · exact iha prev s pr h
    · exact ihb prev s pr h
  | wordB =>
    intro prev s pr hpr
    simp only [mat] at hpr
    split at hpr
    · simp only [List.mem_singleton] at hpr
      exact ⟨[], by simp [hpr]⟩
    · cases hpr
  | noWordBefore =>
    intro prev s pr hpr
    simp only [mat] at hpr
    split at hpr
    · split at hpr
      · cases hpr
      · simp only [List.mem_singleton] at hpr
        exact ⟨[], by simp [hpr]⟩
    · simp only [List.mem_singleton] at hpr
      exact ⟨[], by simp [hpr]⟩
  | noWordAfter =>
    intro prev s pr hpr
    simp only [mat] at hpr
    split at hpr
    · split at hpr
      · cases hpr
      · simp only [List.mem_singleton] at hpr
        exact ⟨[], by simp [hpr]⟩
    · simp only [List.mem_singleton] at hpr
      exact ⟨[], by simp [hpr]⟩

/-- Minimum number of characters any match of `r` consumes. -/
def minConsume : RE → Nat
  | .cls _ lo _ => lo
  | .seq a b => minConsume a + minConsume b
  | .alt a b => min (minConsume a) (minConsume b)
  | .wordB => 0
  | .noWordBefore => 0
  | .noWordAfter => 0

theorem runLen_le (f : Char → Bool) : ∀ (s : Chars), runLen f s ≤ s.length := by
  intro s
  induction s with
  | nil => exact Nat.le_refl _
  | cons c r ih =>
    simp only [runLen, List.length_cons]
    split
    · omega
    · omega

theorem mem_greedyLens {lo : Nat} {hi : Option Nat} {maxRun k : Nat}
    (h : k ∈ greedyLens lo hi maxRun) :
    lo ≤ k ∧ k ≤ maxRun ∧ (∀ hh, hi = some hh → k ≤ hh) := by
  cases hi with
  | none =>
    simp only [greedyLens] at h
    split at h
    · simp only [List.mem_map, List.mem_range] at h
      obtain ⟨i, hi2, rfl⟩ := h
      rename_i htop
      refine ⟨by omega, by omega, ?_⟩
      intro hh heq
      cases heq
    · cases h
  | some hh0 =>
    simp only [greedyLens] at h
    split at h
    · simp only [List.mem_map, List.mem_range] at h
      obtain ⟨i, hi2, rfl⟩ := h
      rename_i htop
      refine ⟨by omega, by omega, ?_⟩
      intro hh heq
      injection heq with heq2
      subst heq2
      omega
    · cases h

theorem mat_minConsume : ∀ (r : RE) (prev : Option Char) (s : Chars)
    (pr : Option Char × Chars), pr ∈ mat r prev s →
    pr.2.length + minConsume r ≤ s.length := by
  intro r
  induction r with
  | cls f lo hi =>
    intro prev s pr hpr
    simp only [mat, List.mem_map] at hpr
    obtain ⟨k, hk, rfl⟩ := hpr
    obtain ⟨h1, h2, -⟩ := mem_greedyLens hk
    have h3 : runLen f s ≤ s.length := runLen_le f s
    simp only [minConsume, List.length_drop]
    omega
  | seq a b iha ihb =>
    intro prev s pr hpr
    simp only [mat, List.mem_flatMap] at hpr
    obtain ⟨pr1, h1, h2⟩ := hpr
    have ha := iha prev s pr1 h1
    have hb := ihb pr1.1 pr1.2 pr h2
    simp only [minConsume]
    omega
  | alt a b iha ihb =>
    intro prev s pr hpr
    simp only [mat, List.mem_append] at hpr
    simp only [minConsume]
    rcases hpr with h | h
    · have := iha prev s pr h
      omega
    · have := ihb prev s pr h
      omega
  | wordB =>
    intro prev s pr hpr
    simp only [mat] at hpr
    split at hpr
    · simp only [List.mem_singleton] at hpr
      simp [hpr, minConsume]
    · cases hpr
  | noWordBefore =>
    intro prev s pr hpr
    simp only [mat] at hpr
    split at hpr
    · split at hpr
      · cases hpr
      · simp only [List.mem_singleton] at hpr
        simp [hpr, minConsume]
    · simp only [List.mem_singleton] at hpr
      simp [hpr, minConsume]
  | noWordAfter =>
    intro prev s pr hpr
    simp only [mat] at hpr
    split at hpr
    · split at hpr
      · cases hpr
      · simp only [List.mem_singleton] at hpr
        simp [hpr, minConsume]
    · simp only [List.mem_singleton] at hpr
      simp [hpr, minConsume]

theorem runLen_ge {f : Char → Bool} : ∀ {b : Chars} (rest : Chars),
    b.all f = true → b.length ≤ runLen f (b ++ rest) := by
  intro b
  induction b with
  | nil => intro rest _; exact Nat.zero_le _
  | cons c t ih =>
    intro rest hall
    simp only [List.all_cons, Bool.and_eq_true] at hall
    simp only [List.cons_append, runLen, hall.1, if_true, List.length_cons, List.append_eq]
    have := ih rest hall.2
    omega

theorem mat_cls_mem (f : Char → Bool) (lo : Nat) (hi : Option Nat) (prev : Option Char)
    (b rest : Chars) (hall : b.all f = true) (hlo : lo ≤ b.length)
    (hhi : ∀ hh, hi = some hh → b.length ≤ hh) :
    (lastOf prev b, rest) ∈ mat (.cls f lo hi) prev (b ++ rest) := by
  have hrun : b.length ≤ runLen f (b ++ rest) := runLen_ge rest hall
  simp only [mat, List.mem_map]
  refine ⟨b.length, ?_, by rw [List.take_left, List.drop_left]⟩
  cases hi with
  | none =>
    simp only [greedyLens]
    rw [if_pos (by omega : lo ≤ runLen f (b ++ rest))]
    simp only [List.mem_map, List.mem_range]
    exact ⟨runLen f (b ++ rest) - b.length, by omega, by omega⟩
  | some hh =>
    have hbh : b.length ≤ hh := hhi hh rfl
    simp only [greedyLens]
    rw [if_pos (by omega : lo ≤ min hh (runLen f (b ++ rest)))]
    simp only [List.mem_map, List.mem_range]
    exact ⟨min hh (runLen f (b ++ rest)) - b.length, by omega, by omega⟩

theorem mat_seq_mem {a b : RE} {prev : Option Char} {s : Chars}
    {pr1 pr2 : Option Char × Chars} (h1 : pr1 ∈ mat a prev s)
    (h2 : pr2 ∈ mat b pr1.1 pr1.2) : pr2 ∈ mat (.seq a b) prev s := by
  simp only [mat, List.mem_flatMap]
  exact ⟨pr1, h1, h2⟩

theorem emailShape_matches {m : Chars} (hm : EmailShape m) (prev : Option Char)
    (rest : Chars) : mat EMAIL_RE prev (m ++ rest) ≠ [] := by
  obtain ⟨l, d1, d2, rfl, hl, hd1, hd2, hal, had1, had2⟩ := hm
  have e1 : (l ++ '@' :: (d1 ++ '.' :: d2)) ++ rest =
      l ++ (['@'] ++ (d1 ++ (['.'] ++ (d2 ++ rest)))) := by
    simp [List.append_assoc]
  rw [e1]
  have p1 := mat_cls_mem emailLocalChar 1 none prev l (['@'] ++ (d1 ++ (['.'] ++ (d2 ++ rest))))
    hal (by cases l with | nil => exact absurd rfl hl | cons c t => simp) (by intro hh h; cases h)
  have p2 := mat_cls_mem (fun x => x = '@') 1 (some 1) (lastOf prev l) ['@']
    (d1 ++ (['.'] ++ (d2 ++ rest))) (by simp) (by simp) (by intro hh h; cases h; simp)
  have p3 := mat_cls_mem emailDomChar 1 none (lastOf (lastOf prev l) ['@']) d1
    (['.'] ++ (d2 ++ rest)) had1
    (by cases d1 with | nil => exact absurd rfl hd1 | cons c t => simp) (by intro hh h; cases h)
  have p4 := mat_cls_mem (fun x => x = '.') 1 (some 1)
    (lastOf (lastOf (lastOf prev l) ['@']) d1) ['.'] (d2 ++ rest)
    (by simp) (by simp) (by intro hh h; cases h; simp)
  have p5 := mat_cls_mem emailDom2Char 1 none
    (lastOf (lastOf (lastOf (lastOf prev l) ['@']) d1) ['.']) d2 rest had2
    (by cases d2 with | nil => exact absurd rfl hd2 | cons c t => simp) (by intro hh h; cases h)
  have chain := mat_seq_mem p1 (mat_seq_mem p2 (mat_seq_mem p3 (mat_seq_mem p4 p5)))
  exact List.ne_nil_of_mem chain

/-! #### Scan lemmas: what each substitution stage does to email-shaped
substrings -/

theorem within_append_right {m A B : Chars} (h : Within m B) : Within m (A ++ B) := by
  obtain ⟨u, v, rfl⟩ := h
  exact ⟨A ++ u, v, by simp [List.append_assoc]⟩

theorem subREFuel_nil (r : RE) (repl : Chars) (fuel : Nat) (prev : Option Char) :
    subREFuel r repl fuel prev [] = [] := by
  cases fuel <;> rfl

theorem subREFuel_zero_cons (r : RE) (repl : Chars) (prev : Option Char) (c : Char)
    (rest : Chars) : subREFuel r repl 0 prev (c :: rest) = c :: rest := rfl

theorem subREFuel_cons_match (r : RE) (repl : Chars) (fuel : Nat) (prev : Option Char)
    (c : Char) (rest : Chars) :
    subREFuel r repl (fuel + 1) prev (c :: rest) =
      match (mat r prev (c :: rest)).head? with
      | some pr =>
          if pr.2.length < (c :: rest).length then repl ++ subREFuel r repl fuel pr.1 pr.2
          else c :: subREFuel r repl fuel (some c) rest
      | none => c :: subREFuel r repl fuel (some c) rest := rfl

theorem subREFuel_cons_some {r : RE} {repl : Chars} {fuel : Nat} {prev : Option Char}
    {c : Char} {rest : Chars} {pr : Option Char × Chars}
    (hmat : (mat r prev (c :: rest)).head? = some pr) :
    subREFuel r repl (fuel + 1) prev (c :: rest) =
      if pr.2.length < (c :: rest).length then repl ++ subREFuel r repl fuel pr.1 pr.2
      else c :: subREFuel r repl fuel (some c) rest := by
  rw [subREFuel_cons_match, hmat]

theorem subREFuel_cons_none {r : RE} {repl : Chars} {fuel : Nat} {prev : Option Char}
    {c : Char} {rest : Chars} (hmat : (mat r prev (c :: rest)).head? = none) :
    subREFuel r repl (fuel + 1) prev (c :: rest) =
      c :: subREFuel r repl fuel (some c) rest := by
  rw [subREFuel_cons_match, hmat]

/-- A leading bracket-free segment of the scan's output is a leading
segment of the scan's input (replacements always start with `[`). -/
theorem subREFuel_lead_pull {r : RE} {repl : Chars} (hhead : repl.head? = some '[') :
    ∀ (fuel : Nat) (prev : Option Char) (s m : Chars), m ≠ [] → '[' ∉ m →
    (∃ w, subREFuel r repl fuel prev s = m ++ w) → ∃ w, s = m ++ w := by
  intro fuel
  induction fuel with
  | zero =>
    intro prev s m hm hbr h
    cases s with
    | nil =>
      obtain ⟨w, hw⟩ := h
      rw [subREFuel_nil] at hw
      cases m with
      | nil => exact absurd rfl hm
      | cons a t => cases hw
    | cons c rest => exact h
  | succ fuel ih =>
    intro prev s m hm hbr h
    cases s with
    | nil =>
      obtain ⟨w, hw⟩ := h
      rw [subREFuel_nil] at hw
      cases m with
      | nil => exact absurd rfl hm
      | cons a t => cases hw
    | cons c rest =>
      obtain ⟨w, hw⟩ := h
      cases hmat : (mat r prev (c :: rest)).head? with
      | some pr =>
        rw [subREFuel_cons_some hmat] at hw
        by_cases hlt : pr.2.length < (c :: rest).length
        · rw [if_pos hlt] at hw
          cases m with
          | nil => exact absurd rfl hm
          | cons mc m' =>
            cases hrepl : repl with
            | nil => rw [hrepl] at hhead; cases hhead
            | cons r0 rt =>
              rw [hrepl] at hhead hw
              simp only [List.head?_cons, Option.some.injEq] at hhead
              simp only [List.cons_append, List.cons.injEq] at hw
              have : mc = '[' := by rw [← hw.1, hhead]
              exact absurd (this ▸ List.mem_cons_self mc m') hbr
        · rw [if_neg hlt] at hw
          cases m with
          | nil => exact absurd rfl hm
          | cons mc m' =>
            simp only [List.cons_append, List.cons.injEq] at hw
            by_cases hm' : m' = []
            · subst hm'
              exact ⟨rest, by simp [hw.1]⟩
            · have hbr' : '[' ∉ m' := fun hx => hbr (List.mem_cons_of_mem _ hx)
              obtain ⟨w3, hw3⟩ := ih (some c) rest m' hm' hbr' ⟨w, hw.2⟩
              exact ⟨w3, by simp [hw.1, hw3]⟩
      | none =>
        rw [subREFuel_cons_none hmat] at hw
        cases m with
        | nil => exact absurd rfl hm
        | cons mc m' =>
          simp only [List.cons_append, List.cons.injEq] at hw
          by_cases hm' : m' = []
          · subst hm'
            exact ⟨rest, by simp [hw.1]⟩
          · have hbr' : '[' ∉ m' := fun hx => hbr (List.mem_cons_of_mem _ hx)
            obtain ⟨w3, hw3⟩ := ih (some c) rest m' hm' hbr' ⟨w, hw.2⟩
            exact ⟨w3, by simp [hw.1, hw3]⟩

theorem minConsume_email : minConsume EMAIL_RE = 5 := rfl

/-- No substring of the email stage's output matches `EMAIL_RE`. -/
theorem emailStage_no_email : ∀ (fuel : Nat) (prev : Option Char) (s : Chars),
    s.length ≤ fuel → ∀ m, EmailShape m →
    ¬ Within m (subREFuel EMAIL_RE "[EMAIL]".data fuel prev s) := by
  intro fuel
  induction fuel with
  | zero =>
    intro prev s hle m hm hW
    have hs : s = [] := List.length_eq_zero.mp (Nat.le_zero.mp hle)
    rw [hs, subREFuel_nil] at hW
    exact emailShape_ne_nil hm (within_nil hW)
  | succ fuel ih =>
    intro prev s hle m hm hW
    cases s with
    | nil =>
      rw [subREFuel_nil] at hW
      exact emailShape_ne_nil hm (within_nil hW)
    | cons c rest =>
      cases hmat : (mat EMAIL_RE prev (c :: rest)).head? with
      | some pr =>
        have hin : pr ∈ mat EMAIL_RE prev (c :: rest) := by
          cases hm2 : mat EMAIL_RE prev (c :: rest) with
          | nil => rw [hm2] at hmat; cases hmat
          | cons x t =>
            rw [hm2] at hmat
            simp only [List.head?_cons, Option.some.injEq] at hmat
            exact hmat ▸ List.mem_cons_self _ _
        have hcons := mat_minConsume EMAIL_RE prev (c :: rest) pr hin
        rw [minConsume_email] at hcons
        have hlt : pr.2.length < (c :: rest).length := by
          simp only [List.length_cons] at hcons ⊢
          omega
        rw [subREFuel_cons_some hmat, if_pos hlt] at hW
        rcases within_append_cases hW with h1 | h1 | ⟨s1, s2, hmEq, h1ne, h2ne, hA, hB⟩
        · have : '@' ∈ "[EMAIL]".data := within_mem h1 (emailShape_at_mem hm)
          exact absurd this (by decide)
        · have hfuel : pr.2.length ≤ fuel := by
            simp only [List.length_cons] at hle hcons
            omega
          exact ih pr.1 pr.2 hfuel m hm h1
        · have hr : ']' ∈ s1 := last_of_trailing (by decide) h1ne hA
          exact emailShape_no_rbrack hm (hmEq ▸ List.mem_append_left _ hr)
      | none =>
        rw [subREFuel_cons_none hmat] at hW
        rcases within_cons_cases hW with ⟨w, hw⟩ | h1
        · obtain ⟨w', hw'⟩ := subREFuel_lead_pull (by decide) (fuel + 1) prev (c :: rest) m
            (emailShape_ne_nil hm) (emailShape_no_lbrack hm)
            ⟨w, (subREFuel_cons_none hmat).trans hw⟩
          have hne := emailShape_matches hm prev w'
          rw [← hw'] at hne
          exact hne (List.head?_eq_none_iff.mp hmat)
        · have hfuel : rest.length ≤ fuel := by
            simp only [List.length_cons] at hle
            omega
          exact ih (some c) rest hfuel m hm h1

/-- Any tag-substitution stage preserves freedom from email-shaped
substrings. -/
theorem stage_preserve {r : RE} {repl : Chars} (htag : TagLike repl) :
    ∀ (fuel : Nat) (prev : Option Char) (s : Chars),
    (∀ m, EmailShape m → ¬ Within m s) →
    ∀ m, EmailShape m → ¬ Within m (subREFuel r repl fuel prev s) := by
  intro fuel
  induction fuel with
  | zero =>
    intro prev s hs m hm hW
    cases s with
    | nil =>
      rw [subREFuel_nil] at hW
      exact emailShape_ne_nil hm (within_nil hW)
    | cons c rest => exact hs m hm hW
  | succ fuel ih =>
    intro prev s hs m hm hW
    cases s with
    | nil =>
      rw [subREFuel_nil] at hW
      exact emailShape_ne_nil hm (within_nil hW)
    | cons c rest =>
      have hrest : ∀ m2, EmailShape m2 → ¬ Within m2 rest := by
        intro m2 hm2 hW2
        exact hs m2 hm2 (within_cons_of c hW2)
      have hkeep : ¬ Within m (c :: subREFuel r repl fuel (some c) rest) := by
        intro hW2
        rcases within_cons_cases hW2 with ⟨w, hw⟩ | h1
        · cases m with
          | nil => exact absurd rfl (emailShape_ne_nil hm)
          | cons mc m' =>
            simp only [List.cons_append, List.cons.injEq] at hw
            obtain ⟨hc, hw2⟩ := hw
            by_cases hm' : m' = []
            · subst hm'
              exact hs _ hm ⟨[], rest, by simp [hc]⟩
            · have hbr' : '[' ∉ m' :=
                fun hx => emailShape_no_lbrack hm (List.mem_cons_of_mem _ hx)
              obtain ⟨w3, hw3⟩ := subREFuel_lead_pull htag.1 fuel (some c) rest m' hm' hbr' ⟨w, hw2⟩
              exact hs _ hm ⟨[], w3, by simp [hc, hw3]⟩
        · exact ih (some c) rest hrest m hm h1
      cases hmat : (mat r prev (c :: rest)).head? with
      | some pr =>
        rw [subREFuel_cons_some hmat] at hW
        by_cases hlt : pr.2.length < (c :: rest).length
        · rw [if_pos hlt] at hW
          rcases within_append_cases hW with h1 | h1 | ⟨s1, s2, hmEq, h1ne, h2ne, hA, hB⟩
          · exact htag.2.2 (within_mem h1 (emailShape_at_mem hm))
          · have hin : pr ∈ mat r prev (c :: rest) := by
              cases hm2 : mat r prev (c :: rest) with
              | nil => rw [hm2] at hmat; cases hmat
              | cons x t =>
                rw [hm2] at hmat
                simp only [List.head?_cons, Option.some.injEq] at hmat
                exact hmat ▸ List.mem_cons_self _ _
            obtain ⟨u, hu⟩ := mat_suffix r prev (c :: rest) pr hin
            have hsuf : ∀ m2, EmailShape m2 → ¬ Within m2 pr.2 := by
              intro m2 hm2 hW2
              exact hs m2 hm2 (hu ▸ within_append_right hW2)
            exact ih pr.1 pr.2 hsuf m hm h1
          · have hr : ']' ∈ s1 := last_of_trailing htag.2.1 h1ne hA
            exact emailShape_no_rbrack hm (hmEq ▸ List.mem_append_left _ hr)
        · rw [if_neg hlt] at hW
          exact hkeep hW
      | none =>
        rw [subREFuel_cons_none hmat] at hW
        exact hkeep hW

/-- The email stage inserts its tag whenever the input contains an
email-shaped substring. -/
theorem emailStage_inserts_tag : ∀ (fuel : Nat) (prev : Option Char) (s : Chars),
    s.length ≤ fuel → (∃ m, EmailShape m ∧ Within m s) →
    Within "[EMAIL]".data (subREFuel EMAIL_RE "[EMAIL]".data fuel prev s) := by
  intro fuel
  induction fuel with
  | zero =>
    intro prev s hle hex
    obtain ⟨m, hm, hW⟩ := hex
    have hs : s = [] := List.length_eq_zero.mp (Nat.le_zero.mp hle)
    rw [hs] at hW
    exact absurd (within_nil hW) (emailShape_ne_nil hm)
  | succ fuel ih =>
    intro prev s hle hex
    obtain ⟨m, hm, hW⟩ := hex
    cases s with
    | nil => exact absurd (within_nil hW) (emailShape_ne_nil hm)
    | cons c rest =>
      cases hmat : (mat EMAIL_RE prev (c :: rest)).head? with
      | some pr =>
        have hin : pr ∈ mat EMAIL_RE prev (c :: rest) := by
          cases hm2 : mat EMAIL_RE prev (c :: rest) with
          | nil => rw [hm2] at hmat; cases hmat
          | cons x t =>
            rw [hm2] at hmat
            simp only [List.head?_cons, Option.some.injEq] at hmat
            exact hmat ▸ List.mem_cons_self _ _
        have hcons := mat_minConsume EMAIL_RE prev (c :: rest) pr hin
        rw [minConsume_email] at hcons
        have hlt : pr.2.length < (c :: rest).length := by
          simp only [List.length_cons] at hcons ⊢
          omega
        rw [subREFuel_cons_some hmat, if_pos hlt]
        exact ⟨[], subREFuel EMAIL_RE "[EMAIL]".data fuel pr.1 pr.2, by simp⟩
      | none =>
        rw [subREFuel_cons_none hmat]
        rcases within_cons_cases hW with ⟨w, hw⟩ | h1
        · exfalso
          have hne := emailShape_matches hm prev w
          rw [← hw] at hne
          exact hne (List.head?_eq_none_iff.mp hmat)
        · have hfuel : rest.length ≤ fuel := by
            simp only [List.length_cons] at hle
            omega
          exact within_cons_of c (ih (some c) rest hfuel ⟨m, hm, h1⟩)

theorem tagChars_cons : ∀ t : NerTok, ∃ tl : Chars,
    tagChars t = '[' :: tl ∧ tl.getLast? = some ']' ∧ '@' ∉ tagChars t := by
  intro t
  unfold tagChars tagOf
  split
  · exact ⟨"PERSON]".data, by simp [String.data_append], by decide, by decide⟩
  · exact ⟨"LOCATION]".data, by simp [String.data_append], by decide, by decide⟩

theorem tagLike_tagChars (t : NerTok) : TagLike (tagChars t) := by
  obtain ⟨tl, heq, hlast, hat⟩ := tagChars_cons t
  refine ⟨by simp [heq], ?_, hat⟩
  rw [heq]
  cases htl : tl with
  | nil => rw [htl] at hlast; cases hlast
  | cons a t2 =>
    rw [List.getLast?_cons_cons]
    rw [htl] at hlast
    exact hlast

theorem spliceTok_preserve (t : NerTok) (s : Chars)
    (hs : ∀ m, EmailShape m → ¬ Within m s) :
    ∀ m, EmailShape m → ¬ Within m (spliceTok s t) := by
  intro m hm hW
  obtain ⟨tl, htc, -, -⟩ := tagChars_cons t
  have htag := tagLike_tagChars t
  rw [spliceTok_eq, List.append_assoc] at hW
  rcases within_append_cases hW with h1 | h1 | ⟨s1, s2, hmEq, h1ne, h2ne, hA, hB⟩
  · exact hs m hm (within_take _ h1)
  · rcases within_append_cases h1 with h2 | h2 | ⟨s1, s2, hmEq, h1ne, h2ne, hA, hB⟩
    · exact htag.2.2 (within_mem h2 (emailShape_at_mem hm))
    · exact hs m hm (within_drop _ h2)
    · have hr : ']' ∈ s1 := last_of_trailing htag.2.1 h1ne hA
      exact emailShape_no_rbrack hm (hmEq ▸ List.mem_append_left _ hr)
  · have hhd : (tagChars t ++ s.drop (tokEnd t)).head? = some '[' := by
      rw [htc]
      simp
    have hl : '[' ∈ s2 := head_of_leading hhd h2ne hB
    exact emailShape_no_lbrack hm (hmEq ▸ List.mem_append_right _ hl)

theorem foldl_spliceTok_preserve : ∀ (toks : List NerTok) (s : Chars),
    (∀ m, EmailShape m → ¬ Within m s) →
    ∀ m, EmailShape m → ¬ Within m (toks.foldl spliceTok s) := by
  intro toks
  induction toks with
  | nil => intro s hs; exact hs
  | cons t ts ih =>
    intro s hs
    exact ih (spliceTok s t) (spliceTok_preserve t s hs)

/-- Freedom from email-shaped substrings, threaded through the stages. -/
def NoEmailIn (l : Chars) : Prop := ∀ m, EmailShape m → ¬ Within m l

theorem scrub_emails_no_email (t : String) : NoEmailIn (scrub_emails t).data := by
  unfold scrub_emails
  split
  · rename_i h0
    intro m hm hW
    rw [h0] at hW
    exact emailShape_ne_nil hm (within_nil hW)
  · exact fun m hm => emailStage_no_email t.data.length none t.data (Nat.le_refl _) m hm

theorem scrub_phones_no_email (t : String) (h : NoEmailIn t.data) :
    NoEmailIn (scrub_phones t).data := by
  unfold scrub_phones
  split
  · exact h
  · exact fun m hm => stage_preserve (by decide) t.data.length none t.data h m hm

theorem scrub_urls_no_email (t : String) (h : NoEmailIn t.data) :
    NoEmailIn (scrub_urls t).data := by
  unfold scrub_urls
  split
  · exact h
  · exact fun m hm => stage_preserve (by decide) t.data.length none t.data h m hm

theorem scrub_tg_no_email (t : String) (h : NoEmailIn t.data) :
    NoEmailIn (scrub_telegram_username t).data := by
  unfold scrub_telegram_username
  split
  · exact h
  · exact fun m hm => stage_preserve (by decide) t.data.length none t.data h m hm

theorem cascade_no_email (t : String) : NoEmailIn (cascade t).data :=
  scrub_tg_no_email _ (scrub_urls_no_email _ (scrub_phones_no_email _ (scrub_emails_no_email t)))

theorem scrubAdv_eq_cyr (o : NlpOracle) (text : String) (hne : text ≠ "")
    (hcy : searchRE CYRILLIC_NAME_RE none (cascade text).data = true) :
    scrub_text_advanced o text =
      ⟨reSub CYRILLIC_NAME_RE "[PERSON] [PERSON]".data (cascade text).data⟩ := by
  simp only [scrub_text_advanced, if_neg hne, hcy, if_true]

theorem scrubAdv_eq_ner (o : NlpOracle) (text : String) (hne : text ≠ "")
    (hcy : searchRE CYRILLIC_NAME_RE none (cascade text).data = false) :
    scrub_text_advanced o text =
      ⟨nerRedact (o.ents (if (o.detect (cascade text)).getD "en" = "en"
          then "en_core_web_sm" else "xx_ent_wiki_sm") (cascade text)) (cascade text).data⟩ := by
  simp only [scrub_text_advanced, if_neg hne, hcy, Bool.false_eq_true, if_false]

/-- Claim C7 (corrected): for every text and every entity-model output,
the email stage replaces every email-shaped substring — its own output
contains the `[EMAIL]` tag whenever the text held one — and no unredacted
copy of any email-shaped substring survives to `scrub_text_advanced`'s
output; the `[EMAIL]` tag itself, however, is not guaranteed to survive
the later stages (see the counterexample, where the URL pattern swallows
it). -/
theorem C7_email_redaction (text : String) (o : NlpOracle) (m : Chars)
    (hm : EmailShape m) :
    (Within m text.data → Within "[EMAIL]".data (scrub_emails text).data) ∧
    ¬ Within m (scrub_text_advanced o text).data := by
  constructor
  · intro hW
    unfold scrub_emails
    split
    · rename_i h0
      rw [h0] at hW
      exact absurd (within_nil hW) (emailShape_ne_nil hm)
    · exact emailStage_inserts_tag text.data.length none text.data (Nat.le_refl _) ⟨m, hm, hW⟩
  · by_cases hne : text = ""
    · subst hne
      intro hW
      exact emailShape_ne_nil hm (within_nil hW)
    · have hc : NoEmailIn (cascade text).data := cascade_no_email text
      cases hcy : searchRE CYRILLIC_NAME_RE none (cascade text).data with
      | true =>
        rw [scrubAdv_eq_cyr o text hne hcy]
        exact stage_preserve (by decide) (cascade text).data.length none (cascade text).data hc m hm
      | false =>
        rw [scrubAdv_eq_ner o text hne hcy]
        exact foldl_spliceTok_preserve _ (cascade text).data hc m hm

/-- Claim C7 witness: a concrete email-bearing text gets its `[EMAIL]` tag
from the email stage and retains no copy of the address. -/
theorem C7_email_redaction_witness :
    Within "[EMAIL]".data (scrub_emails "see a@b.cc ok").data ∧
    ¬ Within "a@b.cc".data (scrub_text_advanced nilOracle "see a@b.cc ok").data := by
  have hshape : EmailShape "a@b.cc".data :=
    ⟨"a".data, "b".data, "cc".data, by decide, by decide, by decide, by decide,
      by decide, by decide, by decide⟩
  have h := C7_email_redaction "see a@b.cc ok" nilOracle "a@b.cc".data hshape
  exact ⟨h.1 ⟨"see ".data, " ok".data, by decide⟩, h.2⟩

/-- Claim C7, counterexample to the claim as stated: the text
`"see https://a@b.cc now"` contains the email-like substring `"a@b.cc"`,
but `scrub_text_advanced` returns `"see [URL]] now"` — the URL stage's
match swallows the freshly inserted `[EMAIL]` tag, so the final output
contains no `[EMAIL]` at all (it does scrub the address itself). -/
theorem C7_counterexample :
    EmailShape "a@b.cc".data ∧
    Within "a@b.cc".data "see https://a@b.cc now".data ∧
    scrub_text_advanced nilOracle "see https://a@b.cc now" = "see [URL]] now" ∧
    ¬ Within "[EMAIL]".data (scrub_text_advanced nilOracle "see https://a@b.cc now").data := by
  refine ⟨⟨"a".data, "b".data, "cc".data, by decide, by decide, by decide, by decide,
      by decide, by decide, by decide⟩,
    ⟨"see https://".data, " now".data, by decide⟩, by decide, ?_⟩
  intro hW
  have := within_hasSub hW
  rw [show scrub_text_advanced nilOracle "see https://a@b.cc now" = "see [URL]] now" from by decide] at this
  exact absurd this (by decide)

end VChars

